import Mathlib

/-! Verification of `vector.go`.

A shallow embedding of the Go type `Vector []float64` and its methods.

* A `Vector` is a list of scalars; the scalar operations the source uses
  (`+`, `-`, `*`, `/`, unary `-`, `>`, `==`, `math.Abs`, `math.Sqrt`, `math.Acos`,
  the zero value) are gathered in a record `Arith`, so every method is
  translated once and can be run at any scalar model.
* `F64` with `ieee` is the IEEE 754 binary64 model of Go's `float64`
  (round to nearest, ties to even).
* A Go `panic` is an `Except.error`; the three panic messages of the source are
  the three kinds `DimensionMismatch`, `ZeroVector`, `NotThreeDimensional`, and
  the run-time panic of an index out of range is `IndexOutOfRange`.
* `math.Acos` is a library routine outside the repository: `ieee` takes it as a
  parameter and the general theorems hold for every choice of it.  Runs on
  concrete inputs use `ieee id` where no value of `math.Acos` matters, and an
  arccosine with `acos(±0) = π/2` where that value is the result.
* `exactArith` is the same record over an ordered field, without rounding; it
  is used at the real numbers for the statements that hold over exact real
  arithmetic only.
* `HeapM` and the methods `AddH`, `NegateH`, ... are the same methods with the
  memory made explicit, for the statements about mutation and aliasing.
-/

namespace GoVector

/-! ## Data model -/

/-- The ways a method can panic. -/
inductive Panic where
  /-- Message `"different dimensions"` -/
  | DimensionMismatch
  /-- Message `"vector is zero"` -/
  | ZeroVector
  /-- Message `"vectors are not 3D"` -/
  | NotThreeDimensional
  /-- Go run-time panic: index out of range -/
  | IndexOutOfRange
  deriving DecidableEq, Repr

/-- The scalar operations of `float64` that `vector.go` uses. -/
structure Arith (F : Type) where
  /-- The zero value of the scalar type (`var sum float64`, `make`) -/
  zero : F
  /-- Binary `+` -/
  add : F → F → F
  /-- Binary `-` -/
  sub : F → F → F
  /-- Binary `*` -/
  mul : F → F → F
  /-- Binary `/` -/
  div : F → F → F
  /-- Unary `-` -/
  neg : F → F
  /-- Function `math.Abs` -/
  abs : F → F
  /-- Function `math.Sqrt` -/
  sqrt : F → F
  /-- Function `math.Acos` -/
  acos : F → F
  /-- Comparison `>` -/
  gt : F → F → Bool
  /-- Comparison `==` -/
  eq : F → F → Bool

/-- Go: `type Vector []float64`. -/
abbrev Vector (F : Type) := List F

variable {F : Type}

/-- Go: `make(Vector, n)`, a fresh slice of `n` zero values. -/
def make (A : Arith F) (n : Nat) : Vector F := List.replicate n A.zero

/-- Go: the read `a[i]`, which panics when `i` is out of range. -/
def index (a : Vector F) (i : Nat) : Except Panic F :=
  match a[i]? with
  | some x => .ok x
  | none => .error .IndexOutOfRange

/-- Go: the write `c[i] = x`, which panics when `i` is out of range. -/
def store (c : Vector F) (i : Nat) (x : F) : Except Panic (Vector F) :=
  if i < c.length then .ok (c.set i x) else .error .IndexOutOfRange

/-- Equality of outcomes is decidable, so that a run can be compared with its
expected outcome. -/
instance decEqExcept {ε α : Type} [DecidableEq ε] [DecidableEq α] : DecidableEq (Except ε α)
  | .ok x, .ok y => if h : x = y then isTrue (by rw [h]) else isFalse (fun h1 => h (Except.ok.inj h1))
  | .error x, .error y =>
    if h : x = y then isTrue (by rw [h]) else isFalse (fun h1 => h (Except.error.inj h1))
  | .ok _, .error _ => isFalse (fun h => Except.noConfusion h)
  | .error _, .ok _ => isFalse (fun h => Except.noConfusion h)

/-! ## IEEE 754 binary64, the model of Go's `float64`

A value is a NaN, an infinity, or a finite number `(-1)^neg * m * 2^e`.  The
binary64 numbers are the finite values with `m < 2^53`, `-1074 ≤ e ≤ 971` and
(`2^52 ≤ m` or `e = -1074`), see `F64.valid`.  Every operation reads a finite
operand as the exact number it denotes and rounds the exact result to nearest,
ties to even. -/

/-- A binary64 value. -/
inductive F64 where
  /-- Not a number -/
  | nan
  /-- Infinity with its sign -/
  | inf (neg : Bool)
  /-- The finite number `(-1)^neg * m * 2^e` -/
  | fin (neg : Bool) (m : Nat) (e : Int)
  deriving DecidableEq, Repr

namespace F64

/-- Number of binary digits of `n`, by halving at most `fuel` times. -/
def bitLenAux : Nat → Nat → Nat
  | 0, _ => 0
  | fuel + 1, n => if n = 0 then 0 else bitLenAux fuel (n / 2) + 1

/-- Number of binary digits of `n` (`0` for `0`). -/
def bitLen (n : Nat) : Nat := bitLenAux n n

/-- Newton iteration for the integer square root, from a guess above the root. -/
def isqrtAux : Nat → Nat → Nat → Nat
  | 0, _, x => x
  | fuel + 1, n, x =>
    let y := (x + n / x) / 2
    if y < x then isqrtAux fuel n y else x

/-- Integer square root: the largest `r` with `r * r ≤ n`. -/
def isqrt (n : Nat) : Nat :=
  if n ≤ 1 then n else isqrtAux (bitLen n) n (2 ^ ((bitLen n + 1) / 2))

/-- The signed integer `(-1)^neg * m`. -/
def signed (neg : Bool) (m : Nat) : Int := if neg then -(m : Int) else (m : Int)

/-- Zero with the given sign. -/
def zeroS (neg : Bool) : F64 := .fin neg 0 (-1074)

/-- Positive zero, the zero value of `float64`. -/
def zero : F64 := zeroS false

/-- Round the exact number `(-1)^neg * m * 2^e` to binary64: to nearest, ties to
even, with gradual underflow and overflow to infinity. -/
def round (neg : Bool) (m : Nat) (e : Int) : F64 :=
  if m = 0 then zeroS neg
  else
    let e1 : Int := max (e + (bitLen m : Int) - 53) (-1074)
    if e1 ≤ e then
      if e1 > 971 then .inf neg else .fin neg (m * 2 ^ (e - e1).toNat) e1
    else
      let k : Nat := (e1 - e).toNat
      let q : Nat := m / 2 ^ k
      let r : Nat := m % 2 ^ k
      let half : Nat := 2 ^ (k - 1)
      let q1 : Nat := if r > half ∨ (r = half ∧ q % 2 = 1) then q + 1 else q
      if q1 = 2 ^ 53 then
        if e1 + 1 > 971 then .inf neg else .fin neg (2 ^ 52) (e1 + 1)
      else if e1 > 971 then .inf neg
      else .fin neg q1 e1

/-- The binary64 numbers among the values of `F64`. -/
def valid : F64 → Bool
  | .nan => true
  | .inf _ => true
  | .fin _ m e => decide (m < 2 ^ 53) && decide (-1074 ≤ e) && decide (e ≤ 971)
      && (decide (2 ^ 52 ≤ m) || decide (e = -1074))

/-- The integer `n` as a binary64 value. -/
def ofNat (n : Nat) : F64 := round false n 0

/-- Unary `-`. -/
def neg : F64 → F64
  | .nan => .nan
  | .inf s => .inf (!s)
  | .fin s m e => .fin (!s) m e

/-- Function `math.Abs`. -/
def abs : F64 → F64
  | .nan => .nan
  | .inf _ => .inf false
  | .fin _ m e => .fin false m e

/-- Binary `+`. -/
def add : F64 → F64 → F64
  | .nan, _ => .nan
  | _, .nan => .nan
  | .inf s, .inf t => if s = t then .inf s else .nan
  | .inf s, .fin _ _ _ => .inf s
  | .fin _ _ _, .inf t => .inf t
  | .fin s m e, .fin t n f =>
    let g : Int := min e f
    let z : Int := signed s (m * 2 ^ (e - g).toNat) + signed t (n * 2 ^ (f - g).toNat)
    if z = 0 then zeroS (s && t) else round (decide (z < 0)) z.natAbs g

/-- Binary `-`: the sum with the negated right operand. -/
def sub (x y : F64) : F64 := add x (neg y)

/-- Binary `*`. -/
def mul : F64 → F64 → F64
  | .nan, _ => .nan
  | _, .nan => .nan
  | .inf s, .inf t => .inf (xor s t)
  | .inf s, .fin t n _ => if n = 0 then .nan else .inf (xor s t)
  | .fin s m _, .inf t => if m = 0 then .nan else .inf (xor s t)
  | .fin s m e, .fin t n f => round (xor s t) (m * n) (e + f)

/-- Binary `/`.  The quotient is computed to more than 64 digits and a last
digit that records whether the division left a remainder. -/
def div : F64 → F64 → F64
  | .nan, _ => .nan
  | _, .nan => .nan
  | .inf _, .inf _ => .nan
  | .inf s, .fin t _ _ => .inf (xor s t)
  | .fin s _ _, .inf t => zeroS (xor s t)
  | .fin s m e, .fin t n f =>
    if n = 0 then (if m = 0 then .nan else .inf (xor s t))
    else
      let k : Nat := 64 + bitLen n
      let q : Nat := m * 2 ^ k / n
      let r : Nat := m * 2 ^ k % n
      round (xor s t) (2 * q + (if r = 0 then 0 else 1)) (e - f - (k : Int) - 1)

/-- The decimal constant `p / q` for integers `p`, `q` below `2^53`, which Go
rounds once to the nearest binary64 value. -/
def dec (p q : Nat) : F64 := div (ofNat p) (ofNat q)

/-- Function `math.Sqrt`.  The root is computed to more than 64 digits and a
last digit that records whether the root is inexact. -/
def sqrt : F64 → F64
  | .nan => .nan
  | .inf s => if s then .nan else .inf false
  | .fin s m e =>
    if m = 0 then zeroS s
    else if s then .nan
    else
      let p : Int := e % 2
      let m2 : Nat := m * 2 ^ (128 + p.toNat)
      let r : Nat := isqrt m2
      round false (2 * r + (if r * r = m2 then 0 else 1)) ((e - 128 - p) / 2 - 1)

/-- Comparison `<`. -/
def lt : F64 → F64 → Bool
  | .nan, _ => false
  | _, .nan => false
  | .inf s, .inf t => s && !t
  | .inf s, .fin _ _ _ => s
  | .fin _ _ _, .inf t => !t
  | .fin s m e, .fin t n f =>
    let g : Int := min e f
    decide (signed s (m * 2 ^ (e - g).toNat) < signed t (n * 2 ^ (f - g).toNat))

/-- Comparison `>`. -/
def gt (x y : F64) : Bool := lt y x

/-- Comparison `<=`. -/
def le (x y : F64) : Bool := lt x y || (match x, y with
  | .nan, _ => false
  | _, .nan => false
  | .inf s, .inf t => s == t
  | .inf _, .fin _ _ _ => false
  | .fin _ _ _, .inf _ => false
  | .fin s m e, .fin t n f =>
    let g : Int := min e f
    decide (signed s (m * 2 ^ (e - g).toNat) = signed t (n * 2 ^ (f - g).toNat)))

/-- Comparison `==`. -/
def eq : F64 → F64 → Bool
  | .nan, _ => false
  | _, .nan => false
  | .inf s, .inf t => s == t
  | .inf _, .fin _ _ _ => false
  | .fin _ _ _, .inf _ => false
  | .fin s m e, .fin t n f =>
    let g : Int := min e f
    decide (signed s (m * 2 ^ (e - g).toNat) = signed t (n * 2 ^ (f - g).toNat))

/-- The values whose exponent is not below that of the smallest binary64
number; every result of `round` is one. -/
def bounded : F64 → Bool
  | .nan => true
  | .inf _ => true
  | .fin _ _ e => decide (-1074 ≤ e)

/-- The values that are not NaN and not below zero: `+Inf`, the finite values
without a minus sign, and the zeros of either sign. -/
def nonneg : F64 → Bool
  | .nan => false
  | .inf s => !s
  | .fin s m _ => !s || decide (m = 0)

/-- The values a sum of squares can take: NaN, or a value that is not below
zero and whose exponent is in range. -/
def good : F64 → Bool
  | .nan => true
  | x => nonneg x && bounded x

end F64

/-- The arithmetic of `float64`.  `math.Acos` is a library routine outside the
repository and is a parameter. -/
def ieee (acos : F64 → F64) : Arith F64 where
  zero := F64.zero
  add := F64.add
  sub := F64.sub
  mul := F64.mul
  div := F64.div
  neg := F64.neg
  abs := F64.abs
  sqrt := F64.sqrt
  acos := acos
  gt := F64.gt
  eq := F64.eq

/-! ## The methods of `vector.go` -/

/-- The loop of `Equal`: the indices still to visit. -/
def Equal.loop (A : Arith F) (a b : Vector F) (eps : F) : List Nat → Except Panic Bool
  | [] => .ok true
  | i :: rest => do
    let x ← index a i
    let y ← index b i
    if A.gt (A.abs (A.sub x y)) eps then .ok false
    else Equal.loop A a b eps rest

/-- Go: `func (a Vector) Equal(b Vector, eps float64) bool`. -/
def Equal (A : Arith F) (a b : Vector F) (eps : F) : Except Panic Bool :=
  if a.length ≠ b.length then .ok false
  else Equal.loop A a b eps (List.range a.length)

/-- Go: `func (a Vector) Add(b Vector) Vector`. -/
def Add (A : Arith F) (a b : Vector F) : Except Panic (Vector F) :=
  if a.length ≠ b.length then .error .DimensionMismatch
  else
    (List.range a.length).foldlM
      (fun c i => do
        let x ← index a i
        let y ← index b i
        store c i (A.add x y))
      (make A a.length)

/-- Go: `func (a Vector) Negate() Vector`. -/
def Negate (A : Arith F) (a : Vector F) : Except Panic (Vector F) :=
  (List.range a.length).foldlM
    (fun b i => do
      let x ← index a i
      store b i (A.neg x))
    (make A a.length)

/-- Go: `func (a Vector) Sub(b Vector) Vector`. -/
def Sub (A : Arith F) (a b : Vector F) : Except Panic (Vector F) := do
  let nb ← Negate A b
  Add A a nb

/-- Go: `func (a Vector) HadamardProduct(b Vector) Vector`. -/
def HadamardProduct (A : Arith F) (a b : Vector F) : Except Panic (Vector F) :=
  if a.length ≠ b.length then .error .DimensionMismatch
  else
    (List.range a.length).foldlM
      (fun c i => do
        let x ← index a i
        let y ← index b i
        store c i (A.mul x y))
      (make A a.length)

/-- Go: `func (a Vector) Sum() float64`. -/
def Sum (A : Arith F) (a : Vector F) : Except Panic F :=
  (List.range a.length).foldlM
    (fun sum i => do
      let x ← index a i
      pure (A.add sum x))
    A.zero

/-- Go: `func (a Vector) Dot(b Vector) float64`. -/
def Dot (A : Arith F) (a b : Vector F) : Except Panic F := do
  let c ← HadamardProduct A a b
  Sum A c

/-- Go: `func (a Vector) Lenght() float64`. -/
def Lenght (A : Arith F) (a : Vector F) : Except Panic F := do
  let d ← Dot A a a
  pure (A.sqrt d)

/-- Go: `func (a Vector) Angle(b Vector) float64`. -/
def Angle (A : Arith F) (a b : Vector F) : Except Panic F := do
  let m ← Lenght A a
  let n ← Lenght A b
  if A.eq m A.zero || A.eq n A.zero then .error .ZeroVector
  else
    let d ← Dot A a b
    pure (A.acos (A.div d (A.mul m n)))

/-- Go: `func (a Vector) Cross(b Vector) Vector`. Each component is the source's
expression, `A.sub` of two `A.mul`.  At `ieee` that is two rounded products and
then the rounded difference, the evaluation on amd64; the Go compiler may fuse
one product into the subtraction on other platforms (arm64), which this record
of operations does not express.  The statements about `Cross` that are claimed
for every platform are those at the level of this formula, for every `Arith`,
and those over exact arithmetic, where fusing changes no value. -/
def Cross (A : Arith F) (a b : Vector F) : Except Panic (Vector F) :=
  if a.length ≠ 3 ∨ b.length ≠ 3 then .error .NotThreeDimensional
  else do
    let c := make A 3
    let a1 ← index a 1
    let b2 ← index b 2
    let a2 ← index a 2
    let b1 ← index b 1
    let c ← store c 0 (A.sub (A.mul a1 b2) (A.mul a2 b1))
    let a2 ← index a 2
    let b0 ← index b 0
    let a0 ← index a 0
    let b2 ← index b 2
    let c ← store c 1 (A.sub (A.mul a2 b0) (A.mul a0 b2))
    let a0 ← index a 0
    let b1 ← index b 1
    let a1 ← index a 1
    let b0 ← index b 0
    let c ← store c 2 (A.sub (A.mul a0 b1) (A.mul a1 b0))
    pure c

/-! ## Exact arithmetic

The same operations over an ordered field, with no rounding: the arithmetic of
the real numbers, against which statements "over exact real arithmetic" are
read.  The square root and the arccosine are parameters; for the reals they are
`Real.sqrt` and `Real.arccos`. -/

/-- The exact arithmetic of an ordered field `K`. -/
def exactArith (K : Type) [LinearOrderedField K] (sqrt acos : K → K) : Arith K where
  zero := 0
  add := fun x y => x + y
  sub := fun x y => x - y
  mul := fun x y => x * y
  div := fun x y => x / y
  neg := fun x => -x
  abs := fun x => |x|
  sqrt := sqrt
  acos := acos
  gt := fun x y => decide (y < x)
  eq := fun x y => decide (x = y)

/-- The finite values: neither NaN nor an infinity. -/
def F64.isFinite : F64 → Bool
  | .fin _ _ _ => true
  | _ => false

/-- The values of magnitude at least `2^t`: the infinities, and the finite
non-zero values `m * 2^e` whose leading digit has weight above `2^t`. -/
def F64.above (t : Int) : F64 → Bool
  | .nan => false
  | .inf _ => true
  | .fin _ m e => decide (m ≠ 0) && decide (t < (F64.bitLen m : Int) + e)

/-- The binary64 value nearest to `π/2`, `1.5707963267948966`. -/
def F64.halfPi : F64 := .fin false 7074237752028440 (-52)

/-! ## The methods over a heap

The same methods with the memory made explicit, for the statements about
mutation and aliasing.  The heap is the list of backing arrays, an address is an
index into it.  A slice value is a window into one backing array, passed by
value as in Go.  A computation takes the heap and returns its outcome together
with the heap it leaves, also when it panics. -/

/-- A Go slice value: the window `[off, off + len)` of the backing array at
address `arr`. -/
structure Slice where
  /-- Address of the backing array -/
  arr : Nat
  /-- Offset of the first element in the backing array -/
  off : Nat
  /-- Go: `len(a)` -/
  len : Nat
  deriving DecidableEq, Repr

/-- The heap: the backing arrays, by address. -/
abbrev Heap (F : Type) := List (List F)

/-- A computation on the heap that may panic. -/
def HeapM (F : Type) (α : Type) : Type := Heap F → Except Panic α × Heap F

/-- Sequencing: a panic stops the computation and keeps the heap reached. -/
def HeapM.bind {α β : Type} (x : HeapM F α) (f : α → HeapM F β) : HeapM F β :=
  fun h =>
    match x h with
    | (.ok r, h1) => f r h1
    | (.error e, h1) => (.error e, h1)

instance instMonadHeapM : Monad (HeapM F) where
  pure r := fun h => (.ok r, h)
  bind := HeapM.bind

/-- Go: `panic(...)`. -/
def panicH {α : Type} (e : Panic) : HeapM F α := fun h => (.error e, h)

/-- Go: `make(Vector, n)`: a new backing array of `n` zero values at the next
free address, and the slice of all of it. -/
def makeH (A : Arith F) (n : Nat) : HeapM F Slice :=
  fun h => (.ok ⟨h.length, 0, n⟩, h ++ [List.replicate n A.zero])

/-- Go: the read `a[i]`. -/
def indexH (a : Slice) (i : Nat) : HeapM F F :=
  fun h =>
    if i < a.len then
      match h[a.arr]? with
      | some arr =>
        match arr[a.off + i]? with
        | some x => (.ok x, h)
        | none => (.error .IndexOutOfRange, h)
      | none => (.error .IndexOutOfRange, h)
    else (.error .IndexOutOfRange, h)

/-- Go: the write `c[i] = x`. -/
def storeH (c : Slice) (i : Nat) (x : F) : HeapM F Unit :=
  fun h =>
    if i < c.len then
      match h[c.arr]? with
      | some arr =>
        if c.off + i < arr.length then (.ok (), h.set c.arr (arr.set (c.off + i) x))
        else (.error .IndexOutOfRange, h)
      | none => (.error .IndexOutOfRange, h)
    else (.error .IndexOutOfRange, h)

/-- The loop of `Equal` over the heap. -/
def EqualH.loop (A : Arith F) (a b : Slice) (eps : F) : List Nat → HeapM F Bool
  | [] => pure true
  | i :: rest => do
    let x ← indexH a i
    let y ← indexH b i
    if A.gt (A.abs (A.sub x y)) eps then pure false
    else EqualH.loop A a b eps rest

/-- `Equal` over the heap. -/
def EqualH (A : Arith F) (a b : Slice) (eps : F) : HeapM F Bool :=
  if a.len ≠ b.len then pure false
  else EqualH.loop A a b eps (List.range a.len)

/-- `Add` over the heap. -/
def AddH (A : Arith F) (a b : Slice) : HeapM F Slice :=
  if a.len ≠ b.len then panicH .DimensionMismatch
  else do
    let c ← makeH A a.len
    (List.range a.len).foldlM
      (fun _ i => do
        let x ← indexH a i
        let y ← indexH b i
        storeH c i (A.add x y))
      ()
    pure c

/-- `Negate` over the heap. -/
def NegateH (A : Arith F) (a : Slice) : HeapM F Slice := do
  let b ← makeH A a.len
  (List.range a.len).foldlM
    (fun _ i => do
      let x ← indexH a i
      storeH b i (A.neg x))
    ()
  pure b

/-- `Sub` over the heap. -/
def SubH (A : Arith F) (a b : Slice) : HeapM F Slice := do
  let nb ← NegateH A b
  AddH A a nb

/-- `HadamardProduct` over the heap. -/
def HadamardProductH (A : Arith F) (a b : Slice) : HeapM F Slice :=
  if a.len ≠ b.len then panicH .DimensionMismatch
  else do
    let c ← makeH A a.len
    (List.range a.len).foldlM
      (fun _ i => do
        let x ← indexH a i
        let y ← indexH b i
        storeH c i (A.mul x y))
      ()
    pure c

/-- `Sum` over the heap. -/
def SumH (A : Arith F) (a : Slice) : HeapM F F :=
  (List.range a.len).foldlM
    (fun sum i => do
      let x ← indexH a i
      pure (A.add sum x))
    A.zero

/-- `Dot` over the heap. -/
def DotH (A : Arith F) (a b : Slice) : HeapM F F := do
  let c ← HadamardProductH A a b
  SumH A c

/-- `Lenght` over the heap. -/
def LenghtH (A : Arith F) (a : Slice) : HeapM F F := do
  let d ← DotH A a a
  pure (A.sqrt d)

/-- `Angle` over the heap. -/
def AngleH (A : Arith F) (a b : Slice) : HeapM F F := do
  let m ← LenghtH A a
  let n ← LenghtH A b
  if A.eq m A.zero || A.eq n A.zero then panicH .ZeroVector
  else
    let d ← DotH A a b
    pure (A.acos (A.div d (A.mul m n)))

/-- `Cross` over the heap. -/
def CrossH (A : Arith F) (a b : Slice) : HeapM F Slice :=
  if a.len ≠ 3 ∨ b.len ≠ 3 then panicH .NotThreeDimensional
  else do
    let c ← makeH A 3
    let a1 ← indexH a 1
    let b2 ← indexH b 2
    let a2 ← indexH a 2
    let b1 ← indexH b 1
    storeH c 0 (A.sub (A.mul a1 b2) (A.mul a2 b1))
    let a2 ← indexH a 2
    let b0 ← indexH b 0
    let a0 ← indexH a 0
    let b2 ← indexH b 2
    storeH c 1 (A.sub (A.mul a2 b0) (A.mul a0 b2))
    let a0 ← indexH a 0
    let b1 ← indexH b 1
    let a1 ← indexH a 1
    let b0 ← indexH b 0
    storeH c 2 (A.sub (A.mul a0 b1) (A.mul a1 b0))
    pure c

/-- The heap `h1` extends `h`: every backing array of `h` is in `h1` at its
address with the same length and the same elements. -/
def Unchanged (h h1 : Heap F) : Prop :=
  h.length ≤ h1.length ∧ ∀ p, p < h.length → h1[p]? = h[p]?

/-- The computation `x`, run on a heap with at least `n` arrays, leaves the
first `n` arrays as they are, and a result it returns satisfies `Q`. -/
def Frames {α : Type} (n : Nat) (x : HeapM F α) (Q : α → Prop) : Prop :=
  ∀ h : Heap F, n ≤ h.length →
    n ≤ (x h).2.length ∧ (∀ p, p < n → (x h).2[p]? = h[p]?) ∧
    ∀ r, (x h).1 = .ok r → Q r

/-! ## Loops and indexing -/

theorem index_of_getElem? {a : Vector F} {i : Nat} {x : F} (h : a[i]? = some x) :
    index a i = .ok x := by
  simp [index, h]

theorem index_of_lt (d : F) {a : Vector F} {i : Nat} (h : i < a.length) :
    index a i = .ok (a.getD i d) := by
  have : a[i]? = some a[i] := List.getElem?_eq_getElem h
  simp [index, this, List.getD]

theorem store_of_lt {c : Vector F} {i : Nat} (x : F) (h : i < c.length) :
    store c i x = .ok (c.set i x) := by
  simp [store, h]

/-- A loop `for i := range ... { c[i] = v i }` over the first `k` indices of a
slice of length `n` succeeds and has written `v i` at every index below `k`. -/
theorem fill_loop (n : Nat) (v : Nat → F) (body : Vector F → Nat → Except Panic (Vector F))
    (hbody : ∀ c i, i < n → c.length = n → body c i = .ok (c.set i (v i)))
    (c0 : Vector F) (h0 : c0.length = n) :
    ∀ k, k ≤ n → ∃ w, (List.range k).foldlM body c0 = .ok w ∧ w.length = n ∧
      ∀ i, i < k → w[i]? = some (v i) := by
  intro k
  induction k with
  | zero =>
    intro _
    exact ⟨c0, rfl, h0, fun i hi => absurd hi (Nat.not_lt_zero i)⟩
  | succ k ih =>
    intro hk
    obtain ⟨c, hc, hlen, hel⟩ := ih (Nat.le_of_succ_le hk)
    refine ⟨c.set k (v k), ?_, ?_, ?_⟩
    · rw [List.range_succ, List.foldlM_append, hc]
      simp only [List.foldlM_cons, List.foldlM_nil]
      show (body c k >>= fun s => pure s) = _
      rw [hbody c k hk hlen]
      rfl
    · simp [hlen]
    · intro i hi
      by_cases hik : i = k
      · subst hik
        rw [List.getElem?_set_self]
        simp [hlen]; omega
      · rw [List.getElem?_set_ne (Ne.symm hik)]
        exact hel i (by omega)

theorem fill_loop_eq (n : Nat) (v : Nat → F) (body : Vector F → Nat → Except Panic (Vector F))
    (hbody : ∀ c i, i < n → c.length = n → body c i = .ok (c.set i (v i)))
    (c0 : Vector F) (h0 : c0.length = n) :
    (List.range n).foldlM body c0 = .ok ((List.range n).map v) := by
  obtain ⟨c, hc, hlen, hel⟩ := fill_loop n v body hbody c0 h0 n (Nat.le_refl n)
  rw [hc]
  congr 1
  apply List.ext_getElem?
  intro i
  by_cases hi : i < n
  · rw [hel i hi]
    simp [hi]
  · rw [List.getElem?_eq_none (by omega), List.getElem?_eq_none (by simp; omega)]

/-! ## What each method computes -/

theorem range_map_zipWith (f : F → F → F) (d : F) (a b : Vector F) (h : a.length = b.length) :
    (List.range a.length).map (fun i => f (a.getD i d) (b.getD i d)) = List.zipWith f a b := by
  apply List.ext_getElem?
  intro i
  by_cases hi : i < a.length
  · have hb : i < b.length := h ▸ hi
    simp [List.getElem?_zipWith, List.getElem?_eq_getElem, hi, hb, List.getD]
  · have hb : ¬ i < b.length := h ▸ hi
    rw [List.getElem?_eq_none (by simp; omega), List.getElem?_eq_none (by simp; omega)]

theorem range_map_map (f : F → F) (d : F) (a : Vector F) :
    (List.range a.length).map (fun i => f (a.getD i d)) = List.map f a := by
  apply List.ext_getElem?
  intro i
  by_cases hi : i < a.length
  · simp [List.getElem?_eq_getElem, hi, List.getD]
  · rw [List.getElem?_eq_none (by simp; omega), List.getElem?_eq_none (by simp; omega)]

/-- With equal dimensions `Add` returns the elementwise sums. -/
theorem Add_eq (A : Arith F) (a b : Vector F) (h : a.length = b.length) :
    Add A a b = .ok (List.zipWith A.add a b) := by
  unfold Add
  rw [if_neg (not_not.mpr h)]
  rw [fill_loop_eq a.length (fun i => A.add (a.getD i A.zero) (b.getD i A.zero))]
  · rw [range_map_zipWith A.add A.zero a b h]
  · intro w i hi hw
    rw [index_of_lt A.zero hi, index_of_lt A.zero (h ▸ hi)]
    exact store_of_lt _ (hw ▸ hi)
  · simp [make]

/-- With equal dimensions `HadamardProduct` returns the elementwise products. -/
theorem HadamardProduct_eq (A : Arith F) (a b : Vector F) (h : a.length = b.length) :
    HadamardProduct A a b = .ok (List.zipWith A.mul a b) := by
  unfold HadamardProduct
  rw [if_neg (not_not.mpr h)]
  rw [fill_loop_eq a.length (fun i => A.mul (a.getD i A.zero) (b.getD i A.zero))]
  · rw [range_map_zipWith A.mul A.zero a b h]
  · intro w i hi hw
    rw [index_of_lt A.zero hi, index_of_lt A.zero (h ▸ hi)]
    exact store_of_lt _ (hw ▸ hi)
  · simp [make]

/-- `Negate` returns the elementwise negations. -/
theorem Negate_eq (A : Arith F) (a : Vector F) :
    Negate A a = .ok (List.map A.neg a) := by
  unfold Negate
  rw [fill_loop_eq a.length (fun i => A.neg (a.getD i A.zero))]
  · rw [range_map_map A.neg A.zero a]
  · intro w i hi hw
    rw [index_of_lt A.zero hi]
    exact store_of_lt _ (hw ▸ hi)
  · simp [make]

theorem sum_loop (A : Arith F) (a : Vector F) :
    ∀ k, k ≤ a.length →
      (List.range k).foldlM (fun sum i => do
          let x ← index a i
          pure (A.add sum x)) A.zero
        = (.ok ((a.take k).foldl A.add A.zero) : Except Panic F) := by
  intro k
  induction k with
  | zero => intro _; rfl
  | succ k ih =>
    intro hk
    have hlt : k < a.length := hk
    rw [List.range_succ, List.foldlM_append, ih (Nat.le_of_succ_le hk)]
    simp only [List.foldlM_cons, List.foldlM_nil]
    rw [index_of_lt A.zero hlt]
    rw [List.take_succ, List.foldl_append, List.getElem?_eq_getElem hlt]
    simp [List.getD, List.getElem?_eq_getElem hlt]
    rfl

/-- `Sum` returns the left fold of `+` from the zero value. -/
theorem Sum_eq (A : Arith F) (a : Vector F) :
    Sum A a = .ok (a.foldl A.add A.zero) := by
  unfold Sum
  rw [sum_loop A a a.length (Nat.le_refl _), List.take_length]

/-- With equal dimensions `Dot` is the sum of the elementwise products. -/
theorem Dot_eq (A : Arith F) (a b : Vector F) (h : a.length = b.length) :
    Dot A a b = .ok ((List.zipWith A.mul a b).foldl A.add A.zero) := by
  unfold Dot
  rw [HadamardProduct_eq A a b h]
  exact Sum_eq A _

theorem Dot_mismatch (A : Arith F) (a b : Vector F) (h : a.length ≠ b.length) :
    Dot A a b = .error .DimensionMismatch := by
  unfold Dot HadamardProduct
  rw [if_pos h]
  rfl

theorem Lenght_eq (A : Arith F) (a : Vector F) :
    Lenght A a = .ok (A.sqrt ((List.zipWith A.mul a a).foldl A.add A.zero)) := by
  unfold Lenght
  rw [Dot_eq A a a rfl]
  rfl

/-! ## The claims -/

theorem zipWith_getElem?_some (f : F → F → F) (a b : Vector F) (i : Nat) (x y : F)
    (hx : a[i]? = some x) (hy : b[i]? = some y) :
    (List.zipWith f a b)[i]? = some (f x y) := by
  simp [List.getElem?_zipWith, hx, hy]

/-- `Add` panics with "different dimensions" exactly on unequal dimensions. -/
theorem Add_error_iff (A : Arith F) (a b : Vector F) :
    Add A a b = .error .DimensionMismatch ↔ a.length ≠ b.length := by
  constructor
  · intro h hlen
    rw [Add_eq A a b hlen] at h
    cases h
  · intro h
    unfold Add
    rw [if_pos h]

/-! ## C1: `Add` -/

/-- C1: `Add(a, b)` panics with "different dimensions" exactly when
`len(a) != len(b)`; otherwise it returns a vector of length `len(a)` whose
element at every index `i` is `a[i] + b[i]`. -/
theorem Add_contract (A : Arith F) (a b : Vector F) :
    (Add A a b = .error .DimensionMismatch ↔ a.length ≠ b.length) ∧
    (a.length = b.length →
      ∃ w, Add A a b = .ok w ∧ w.length = a.length ∧
        ∀ (i : Nat) (x y : F), a[i]? = some x → b[i]? = some y → w[i]? = some (A.add x y)) := by
  refine ⟨Add_error_iff A a b, ?_⟩
  · intro hlen
    refine ⟨List.zipWith A.add a b, Add_eq A a b hlen, ?_, ?_⟩
    · simp [hlen]
    · intro i x y hx hy
      exact zipWith_getElem?_some A.add a b i x y hx hy

/-- C1 at concrete inputs: `Add([1,2], [1,2,3])` panics with "different
dimensions", and `Add([1,2], [3,4])` succeeds with two elementwise sums. -/
theorem Add_contract_witness :
    Add (ieee id) [F64.ofNat 1, F64.ofNat 2] [F64.ofNat 1, F64.ofNat 2, F64.ofNat 3]
        = .error .DimensionMismatch ∧
    ∃ w, Add (ieee id) [F64.ofNat 1, F64.ofNat 2] [F64.ofNat 3, F64.ofNat 4] = .ok w ∧
      w.length = 2 ∧
      ∀ (i : Nat) (x y : F64), [F64.ofNat 1, F64.ofNat 2][i]? = some x →
        [F64.ofNat 3, F64.ofNat 4][i]? = some y → w[i]? = some ((ieee id).add x y) :=
  ⟨(Add_contract (ieee id) _ _).1.mpr (by decide),
   (Add_contract (ieee id) [F64.ofNat 1, F64.ofNat 2] [F64.ofNat 3, F64.ofNat 4]).2 (by decide)⟩

/-! ## C9: `HadamardProduct` -/

/-- C9: `HadamardProduct(a, b)` panics with "different dimensions" exactly when
`len(a) != len(b)`; otherwise it returns a vector of length `len(a)` whose
element at every index `i` is `a[i] * b[i]`. -/
theorem HadamardProduct_contract (A : Arith F) (a b : Vector F) :
    (HadamardProduct A a b = .error .DimensionMismatch ↔ a.length ≠ b.length) ∧
    (a.length = b.length →
      ∃ w, HadamardProduct A a b = .ok w ∧ w.length = a.length ∧
        ∀ (i : Nat) (x y : F), a[i]? = some x → b[i]? = some y → w[i]? = some (A.mul x y)) := by
  constructor
  · constructor
    · intro h hlen
      rw [HadamardProduct_eq A a b hlen] at h
      cases h
    · intro h
      unfold HadamardProduct
      rw [if_pos h]
  · intro hlen
    refine ⟨List.zipWith A.mul a b, HadamardProduct_eq A a b hlen, ?_, ?_⟩
    · simp [hlen]
    · intro i x y hx hy
      exact zipWith_getElem?_some A.mul a b i x y hx hy

/-- C9 at concrete inputs: `HadamardProduct([1,2], [1,2,3])` panics, and
`HadamardProduct([2,3], [4,5])` succeeds with two elementwise products. -/
theorem HadamardProduct_contract_witness :
    HadamardProduct (ieee id) [F64.ofNat 1, F64.ofNat 2] [F64.ofNat 1, F64.ofNat 2, F64.ofNat 3]
        = .error .DimensionMismatch ∧
    ∃ w, HadamardProduct (ieee id) [F64.ofNat 2, F64.ofNat 3] [F64.ofNat 4, F64.ofNat 5] = .ok w ∧
      w.length = 2 ∧
      ∀ (i : Nat) (x y : F64), [F64.ofNat 2, F64.ofNat 3][i]? = some x →
        [F64.ofNat 4, F64.ofNat 5][i]? = some y → w[i]? = some ((ieee id).mul x y) :=
  ⟨(HadamardProduct_contract (ieee id) _ _).1.mpr (by decide),
   (HadamardProduct_contract (ieee id) [F64.ofNat 2, F64.ofNat 3]
      [F64.ofNat 4, F64.ofNat 5]).2 (by decide)⟩

/-! ## C10: `Dot` -/

/-- C10: `Dot(a, b)` panics with "different dimensions" exactly when
`len(a) != len(b)`; for equal dimensions it is `Sum(HadamardProduct(a, b))`, the
sum from left to right, starting at zero, of the products `a[i] * b[i]`; it is
zero for two empty vectors. -/
theorem Dot_contract (A : Arith F) (a b : Vector F) :
    (Dot A a b = .error .DimensionMismatch ↔ a.length ≠ b.length) ∧
    (a.length = b.length →
      ∃ h, HadamardProduct A a b = .ok h ∧ Dot A a b = Sum A h ∧
        Dot A a b = .ok ((List.zipWith A.mul a b).foldl A.add A.zero)) ∧
    Dot A [] [] = .ok A.zero := by
  refine ⟨⟨?_, Dot_mismatch A a b⟩, ?_, rfl⟩
  · intro h hlen
    rw [Dot_eq A a b hlen] at h
    cases h
  · intro hlen
    refine ⟨List.zipWith A.mul a b, HadamardProduct_eq A a b hlen, ?_, Dot_eq A a b hlen⟩
    rw [Dot_eq A a b hlen, Sum_eq]

/-- C10 at concrete inputs: `Dot([1,2], [1,2,3])` panics, and
`Dot([1,2,3], [4,5,6])` is `32`. -/
theorem Dot_contract_witness :
    Dot (ieee id) [F64.ofNat 1, F64.ofNat 2] [F64.ofNat 1, F64.ofNat 2, F64.ofNat 3]
        = .error .DimensionMismatch ∧
    Dot (ieee id) [F64.ofNat 1, F64.ofNat 2, F64.ofNat 3] [F64.ofNat 4, F64.ofNat 5, F64.ofNat 6]
        = .ok (F64.ofNat 32) :=
  ⟨(Dot_contract (ieee id) _ _).1.mpr (by decide),
   by
    obtain ⟨_, _, _, h⟩ := (Dot_contract (ieee id) [F64.ofNat 1, F64.ofNat 2, F64.ofNat 3]
      [F64.ofNat 4, F64.ofNat 5, F64.ofNat 6]).2.1 (by decide)
    rw [h]
    decide!⟩

/-! ## C8: `Sub` -/

/-- C8: `Sub(a, b)` has the outcome of `Add(a, Negate(b))`: it panics with
"different dimensions" exactly when `len(a) != len(b)`, and otherwise returns the
vector of length `len(a)` whose element at every index `i` is `a[i] + (-b[i])`,
which in binary64 is `a[i] - b[i]`. -/
theorem Sub_contract (A : Arith F) (a b : Vector F) :
    (∃ nb, Negate A b = .ok nb ∧ Sub A a b = Add A a nb) ∧
    (Sub A a b = .error .DimensionMismatch ↔ a.length ≠ b.length) ∧
    (a.length = b.length →
      ∃ w, Sub A a b = .ok w ∧ w.length = a.length ∧
        ∀ (i : Nat) (x y : F), a[i]? = some x → b[i]? = some y →
          w[i]? = some (A.add x (A.neg y))) ∧
    (∀ (acos : F64 → F64) (x y : F64),
      (ieee acos).add x ((ieee acos).neg y) = (ieee acos).sub x y) := by
  have hsub : Sub A a b = Add A a (List.map A.neg b) := by
    unfold Sub
    rw [Negate_eq]
    rfl
  refine ⟨⟨List.map A.neg b, Negate_eq A b, hsub⟩, ?_, ?_, fun _ _ _ => rfl⟩
  · rw [hsub]
    have h := Add_error_iff A a (List.map A.neg b)
    rw [List.length_map] at h
    exact h
  · intro hlen
    have hlen2 : a.length = (List.map A.neg b).length := by rw [List.length_map]; exact hlen
    refine ⟨List.zipWith A.add a (List.map A.neg b), ?_, ?_, ?_⟩
    · rw [hsub]
      exact Add_eq A a _ hlen2
    · simp [hlen]
    · intro i x y hx hy
      apply zipWith_getElem?_some A.add a _ i x (A.neg y) hx
      simp [hy]

/-- C8 at concrete inputs: `Sub([1,2], [1,2,3])` panics with "different
dimensions", and `Sub([5,7], [1,2])` is `[4,5]`. -/
theorem Sub_contract_witness :
    Sub (ieee id) [F64.ofNat 1, F64.ofNat 2] [F64.ofNat 1, F64.ofNat 2, F64.ofNat 3]
        = .error .DimensionMismatch ∧
    Sub (ieee id) [F64.ofNat 5, F64.ofNat 7] [F64.ofNat 1, F64.ofNat 2]
        = .ok [F64.ofNat 4, F64.ofNat 5] :=
  ⟨(Sub_contract (ieee id) _ _).2.1.mpr (by decide),
   by
    obtain ⟨w, hw, hlen, hel⟩ := (Sub_contract (ieee id) [F64.ofNat 5, F64.ofNat 7]
      [F64.ofNat 1, F64.ofNat 2]).2.2.1 (by decide)
    rw [hw]
    have h0 := hel 0 _ _ rfl rfl
    have h1 := hel 1 _ _ rfl rfl
    match w, hlen, h0, h1 with
    | [u, v], _, h0, h1 =>
      simp only [List.getElem?_cons_zero, List.getElem?_cons_succ, Option.some.injEq] at h0 h1
      rw [h0, h1]
      decide!⟩

/-! ## C5: `Cross` -/

/-- C5: `Cross(a, b)` panics with "vectors are not 3D" exactly when
`len(a) != 3` or `len(b) != 3`; for two vectors of length 3 it returns the
length-3 vector `[a1*b2 - a2*b1, a2*b0 - a0*b2, a0*b1 - a1*b0]`. -/
theorem Cross_contract (A : Arith F) (a b : Vector F) :
    (Cross A a b = .error .NotThreeDimensional ↔ a.length ≠ 3 ∨ b.length ≠ 3) ∧
    (a.length = 3 → b.length = 3 →
      ∃ a0 a1 a2 b0 b1 b2, a = [a0, a1, a2] ∧ b = [b0, b1, b2] ∧
        Cross A a b = .ok [A.sub (A.mul a1 b2) (A.mul a2 b1),
                           A.sub (A.mul a2 b0) (A.mul a0 b2),
                           A.sub (A.mul a0 b1) (A.mul a1 b0)]) := by
  have key : a.length = 3 → b.length = 3 →
      ∃ a0 a1 a2 b0 b1 b2, a = [a0, a1, a2] ∧ b = [b0, b1, b2] ∧
        Cross A a b = .ok [A.sub (A.mul a1 b2) (A.mul a2 b1),
                           A.sub (A.mul a2 b0) (A.mul a0 b2),
                           A.sub (A.mul a0 b1) (A.mul a1 b0)] := by
    intro ha hb
    match a, ha, b, hb with
    | [a0, a1, a2], _, [b0, b1, b2], _ =>
      exact ⟨a0, a1, a2, b0, b1, b2, rfl, rfl, rfl⟩
  refine ⟨⟨?_, ?_⟩, key⟩
  · intro h
    by_contra hn
    have ha : a.length = 3 := by
      by_contra ha
      exact hn (Or.inl ha)
    have hb : b.length = 3 := by
      by_contra hb
      exact hn (Or.inr hb)
    obtain ⟨_, _, _, _, _, _, _, _, hc⟩ := key ha hb
    rw [hc] at h
    cases h
  · intro h
    unfold Cross
    rw [if_pos h]

/-- C5 at concrete inputs: `Cross([1,0,0], [0,1,0])` is `[0,0,1]` and
`Cross([1,2], [1,2,3])` panics with "vectors are not 3D". -/
theorem Cross_contract_witness :
    Cross (ieee id) [F64.ofNat 1, F64.ofNat 0, F64.ofNat 0]
        [F64.ofNat 0, F64.ofNat 1, F64.ofNat 0]
        = .ok [F64.ofNat 0, F64.ofNat 0, F64.ofNat 1] ∧
    Cross (ieee id) [F64.ofNat 1, F64.ofNat 2] [F64.ofNat 1, F64.ofNat 2, F64.ofNat 3]
        = .error .NotThreeDimensional :=
  ⟨by
    obtain ⟨a0, a1, a2, b0, b1, b2, ha, hb, hc⟩ :=
      (Cross_contract (ieee id) [F64.ofNat 1, F64.ofNat 0, F64.ofNat 0]
        [F64.ofNat 0, F64.ofNat 1, F64.ofNat 0]).2 rfl rfl
    rw [hc]
    cases ha
    cases hb
    decide!,
   (Cross_contract (ieee id) _ _).1.mpr (by decide)⟩

theorem Equal_loop_eq (A : Arith F) (a b : Vector F) (eps : F) (l : List Nat)
    (h : ∀ i ∈ l, i < a.length ∧ i < b.length) :
    Equal.loop A a b eps l
      = .ok (l.all fun i => !A.gt (A.abs (A.sub (a.getD i A.zero) (b.getD i A.zero))) eps) := by
  induction l with
  | nil => rfl
  | cons i rest ih =>
    have hi := h i (List.mem_cons_self i rest)
    have hrest : ∀ j ∈ rest, j < a.length ∧ j < b.length :=
      fun j hj => h j (List.mem_cons_of_mem i hj)
    unfold Equal.loop
    rw [index_of_lt A.zero hi.1, index_of_lt A.zero hi.2]
    show (if A.gt (A.abs (A.sub (a.getD i A.zero) (b.getD i A.zero))) eps = true then .ok false
      else Equal.loop A a b eps rest) = _
    rw [ih hrest, List.all_cons]
    cases A.gt (A.abs (A.sub (a.getD i A.zero) (b.getD i A.zero))) eps <;> simp

/-- `Equal` never panics; it answers whether the dimensions agree and no
difference `|a[i] - b[i]|` compares greater than `eps`. -/
theorem Equal_eq (A : Arith F) (a b : Vector F) (eps : F) :
    Equal A a b eps = .ok (decide (a.length = b.length) &&
      (List.range a.length).all fun i =>
        !A.gt (A.abs (A.sub (a.getD i A.zero) (b.getD i A.zero))) eps) := by
  unfold Equal
  by_cases h : a.length = b.length
  · rw [if_neg (not_not.mpr h), Equal_loop_eq]
    · simp [h]
    · intro i hi
      have := List.mem_range.mp hi
      exact ⟨this, h ▸ this⟩
  · rw [if_pos h]
    simp [h]

theorem Equal_true_iff (A : Arith F) (a b : Vector F) (eps : F) :
    Equal A a b eps = .ok true ↔
      a.length = b.length ∧
      ∀ (i : Nat) (x y : F), a[i]? = some x → b[i]? = some y →
        A.gt (A.abs (A.sub x y)) eps = false := by
  rw [Equal_eq]
  constructor
  · intro h
    have h2 := Except.ok.inj h
    simp only [Bool.and_eq_true, decide_eq_true_eq, List.all_eq_true, List.mem_range] at h2
    refine ⟨h2.1, ?_⟩
    intro i x y hx hy
    have hi : i < a.length := by
      by_contra hn
      rw [List.getElem?_eq_none (by omega)] at hx
      cases hx
    have := h2.2 i hi
    have hxd : a.getD i A.zero = x := by simp [List.getD, hx]
    have hyd : b.getD i A.zero = y := by simp [List.getD, hy]
    rw [hxd, hyd] at this
    simpa using this
  · rintro ⟨hlen, hel⟩
    congr 1
    simp only [Bool.and_eq_true, decide_eq_true_eq, List.all_eq_true, List.mem_range]
    refine ⟨hlen, ?_⟩
    intro i hi
    have hb : i < b.length := hlen ▸ hi
    have := hel i (a.getD i A.zero) (b.getD i A.zero)
      (by simp [List.getD, List.getElem?_eq_getElem hi])
      (by simp [List.getD, List.getElem?_eq_getElem hb])
    simpa [List.getD] using this


/-- For operands that are not NaN, "not greater" is "less or equal". -/
theorem F64.not_gt_iff_le (x y : F64) (hx : x ≠ .nan) (hy : y ≠ .nan) :
    F64.gt x y = false ↔ F64.le x y = true := by
  cases x with
  | nan => exact absurd rfl hx
  | inf s =>
    cases y with
    | nan => exact absurd rfl hy
    | inf t => cases s <;> cases t <;> decide
    | fin t n f => cases s <;> simp [F64.gt, F64.le, F64.lt]
  | fin s m e =>
    cases y with
    | nan => exact absurd rfl hy
    | inf t => cases t <;> simp [F64.gt, F64.le, F64.lt]
    | fin t n f =>
      simp only [F64.gt, F64.le, F64.lt, Bool.or_eq_true, decide_eq_true_eq,
        decide_eq_false_iff_not, min_comm f e]
      omega


theorem F64.abs_ne_nan (x : F64) (hx : x ≠ .nan) : F64.abs x ≠ .nan := by
  cases x with
  | nan => exact absurd rfl hx
  | inf s => intro h; cases h
  | fin s m e => intro h; cases h

/-! ## C2: `Equal` -/

/-- C2, as the code has it: `Equal` never panics; a dimension mismatch yields
`false`; `Equal(a, b, eps)` is `true` exactly when `len(a) == len(b)` and at no
index `|a[i] - b[i]| > eps` holds.  In binary64, when `eps` is not NaN and no
difference `a[i] - b[i]` is NaN, that is: at every index `|a[i] - b[i]| <= eps`. -/
theorem Equal_contract (A : Arith F) (a b : Vector F) (eps : F) :
    (∃ r, Equal A a b eps = .ok r) ∧
    (a.length ≠ b.length → Equal A a b eps = .ok false) ∧
    (Equal A a b eps = .ok true ↔
      a.length = b.length ∧
      ∀ (i : Nat) (x y : F), a[i]? = some x → b[i]? = some y →
        A.gt (A.abs (A.sub x y)) eps = false) ∧
    (∀ (acos : F64 → F64) (u v : Vector F64) (tol : F64), tol ≠ .nan →
      (∀ (i : Nat) (x y : F64), u[i]? = some x → v[i]? = some y → F64.sub x y ≠ .nan) →
      (Equal (ieee acos) u v tol = .ok true ↔
        u.length = v.length ∧
        ∀ (i : Nat) (x y : F64), u[i]? = some x → v[i]? = some y →
          F64.le (F64.abs (F64.sub x y)) tol = true)) := by
  refine ⟨⟨_, Equal_eq A a b eps⟩, ?_, Equal_true_iff A a b eps, ?_⟩
  · intro h
    unfold Equal
    rw [if_pos h]
  · intro acos u v tol htol hnan
    rw [Equal_true_iff]
    constructor
    · rintro ⟨hlen, hel⟩
      refine ⟨hlen, fun i x y hx hy => ?_⟩
      exact (F64.not_gt_iff_le _ _ (F64.abs_ne_nan _ (hnan i x y hx hy)) htol).mp
        (hel i x y hx hy)
    · rintro ⟨hlen, hel⟩
      refine ⟨hlen, fun i x y hx hy => ?_⟩
      exact (F64.not_gt_iff_le _ _ (F64.abs_ne_nan _ (hnan i x y hx hy)) htol).mpr
        (hel i x y hx hy)

/-- C2 at the inputs of the specification: `Equal([1,2,3], [1,2,3.0000001], 1e-6)`
is `true` and every difference is at most `1e-6`; with `1e-9` the answer is
`false`; vectors of different dimensions compare `false`. -/
theorem Equal_contract_witness :
    (Equal (ieee id) [F64.ofNat 1, F64.ofNat 2, F64.ofNat 3]
        [F64.ofNat 1, F64.ofNat 2, F64.dec 30000001 10000000] (F64.dec 1 1000000) = .ok true ∧
      ∀ (i : Nat) (x y : F64), [F64.ofNat 1, F64.ofNat 2, F64.ofNat 3][i]? = some x →
        [F64.ofNat 1, F64.ofNat 2, F64.dec 30000001 10000000][i]? = some y →
          F64.le (F64.abs (F64.sub x y)) (F64.dec 1 1000000) = true) ∧
    Equal (ieee id) [F64.ofNat 1, F64.ofNat 2, F64.ofNat 3]
        [F64.ofNat 1, F64.ofNat 2, F64.dec 30000001 10000000] (F64.dec 1 1000000000)
        = .ok false ∧
    Equal (ieee id) [F64.ofNat 1, F64.ofNat 2] [F64.ofNat 1, F64.ofNat 2, F64.ofNat 3]
        (F64.ofNat 1) = .ok false :=
  ⟨⟨by decide!,
    (((Equal_contract (ieee id) [] [] F64.zero).2.2.2 id
        [F64.ofNat 1, F64.ofNat 2, F64.ofNat 3]
        [F64.ofNat 1, F64.ofNat 2, F64.dec 30000001 10000000] (F64.dec 1 1000000)
        (by decide!)
        (by
          intro i x y hx hy
          rcases i with _ | _ | _ | i
          · simp only [List.getElem?_cons_zero, Option.some.injEq] at hx hy
            subst hx hy
            decide!
          · simp only [List.getElem?_cons_succ, List.getElem?_cons_zero,
              Option.some.injEq] at hx hy
            subst hx hy
            decide!
          · simp only [List.getElem?_cons_succ, List.getElem?_cons_zero,
              Option.some.injEq] at hx hy
            subst hx hy
            decide!
          · simp at hx)).mp (by decide!)).2⟩,
   by decide!,
   (Equal_contract (ieee id) _ _ _).2.1 (by decide)⟩

/-- C2 as stated fails: `Equal([NaN], [0], 0)` is `true` although
`|NaN - 0| <= 0` is false, so "true iff every `|a[i] - b[i]| <= eps`" does not
hold for all vectors. -/
theorem Equal_claim_counterexample :
    ¬ ∀ (a b : Vector F64) (eps : F64),
      (Equal (ieee id) a b eps = .ok true ↔
        a.length = b.length ∧
        ∀ (i : Nat) (x y : F64), a[i]? = some x → b[i]? = some y →
          F64.le (F64.abs (F64.sub x y)) eps = true) := by
  intro h
  have h1 := (h [F64.nan] [F64.ofNat 0] (F64.ofNat 0)).mp (by decide)
  have h2 := h1.2 0 F64.nan (F64.ofNat 0) rfl rfl
  revert h2
  decide

/-- What `Angle` does, by the outcome of its two `Lenght` calls and of `Dot`. -/
theorem Angle_eq (A : Arith F) (a b : Vector F) :
    Angle A a b =
      if A.eq (A.sqrt ((List.zipWith A.mul a a).foldl A.add A.zero)) A.zero = true ∨
         A.eq (A.sqrt ((List.zipWith A.mul b b).foldl A.add A.zero)) A.zero = true
      then .error .ZeroVector
      else if a.length ≠ b.length then .error .DimensionMismatch
      else .ok (A.acos (A.div ((List.zipWith A.mul a b).foldl A.add A.zero)
        (A.mul (A.sqrt ((List.zipWith A.mul a a).foldl A.add A.zero))
               (A.sqrt ((List.zipWith A.mul b b).foldl A.add A.zero))))) := by
  unfold Angle
  rw [Lenght_eq A a, Lenght_eq A b]
  show (if (A.eq _ A.zero || A.eq _ A.zero) = true then _ else _) = _
  by_cases hz : (A.eq (A.sqrt ((List.zipWith A.mul a a).foldl A.add A.zero)) A.zero
      || A.eq (A.sqrt ((List.zipWith A.mul b b).foldl A.add A.zero)) A.zero) = true
  · rw [if_pos hz, if_pos (by simpa using hz)]
  · rw [if_neg hz, if_neg (by simpa using hz)]
    by_cases hlen : a.length = b.length
    · rw [if_neg (not_not.mpr hlen), Dot_eq A a b hlen]
      rfl
    · rw [if_pos hlen, Dot_mismatch A a b hlen]
      rfl

/-! ## C3: `Angle` on vectors of different dimensions -/

/-- C3, as the code has it: for `len(a) != len(b)`, `Angle(a, b)` panics; the
panic is "vector is zero" when `Lenght(a) == 0` or `Lenght(b) == 0`, because the
two lengths are tested before the dot product is taken, and it is the
"different dimensions" panic of `Dot` otherwise. -/
theorem Angle_mismatch (A : Arith F) (a b : Vector F) (hlen : a.length ≠ b.length) :
    ∃ m n, Lenght A a = .ok m ∧ Lenght A b = .ok n ∧
      Dot A a b = .error .DimensionMismatch ∧
      ((A.eq m A.zero = true ∨ A.eq n A.zero = true) → Angle A a b = .error .ZeroVector) ∧
      (A.eq m A.zero = false → A.eq n A.zero = false →
        Angle A a b = .error .DimensionMismatch) := by
  refine ⟨_, _, Lenght_eq A a, Lenght_eq A b, Dot_mismatch A a b hlen, ?_, ?_⟩
  · intro h
    rw [Angle_eq, if_pos h]
  · intro hm hn
    rw [Angle_eq, if_neg (fun h => by rcases h with h | h <;> simp_all), if_pos hlen]

/-- C3 at concrete inputs: `Angle([1], [1,0])` panics with "different
dimensions". -/
theorem Angle_mismatch_witness :
    Angle (ieee id) [F64.ofNat 1] [F64.ofNat 1, F64.ofNat 0] = .error .DimensionMismatch := by
  obtain ⟨m, n, hm, hn, _, _, h⟩ :=
    Angle_mismatch (ieee id) [F64.ofNat 1] [F64.ofNat 1, F64.ofNat 0] (by decide)
  have hm1 : Lenght (ieee id) [F64.ofNat 1] = .ok (F64.ofNat 1) := by decide!
  have hn1 : Lenght (ieee id) [F64.ofNat 1, F64.ofNat 0] = .ok (F64.ofNat 1) := by decide!
  rw [hm1] at hm
  rw [hn1] at hn
  have em := Except.ok.inj hm
  have en := Except.ok.inj hn
  subst em en
  exact h (by decide!) (by decide!)

/-- C3 as stated fails: `Angle([0,0], [1,0,0])` has vectors of different
dimensions and panics with "vector is zero", not with "different dimensions". -/
theorem Angle_mismatch_counterexample :
    ¬ ∀ (a b : Vector F64), a.length ≠ b.length →
      Angle (ieee id) a b = .error .DimensionMismatch := by
  intro h
  have h1 := h [F64.ofNat 0, F64.ofNat 0] [F64.ofNat 1, F64.ofNat 0, F64.ofNat 0] (by decide)
  revert h1
  decide!

/-! ## C4: `Angle` and the zero vector -/

/-- C4: for vectors of any dimensions, if `Lenght(a) == 0` or `Lenght(b) == 0`
then `Angle(a, b)` panics with "vector is zero"; for equal dimensions and both
lengths non-zero it returns `acos(Dot(a, b) / (Lenght(a) * Lenght(b)))`. -/
theorem Angle_contract (A : Arith F) (a b : Vector F) :
    ∃ m n, Lenght A a = .ok m ∧ Lenght A b = .ok n ∧
      ((A.eq m A.zero = true ∨ A.eq n A.zero = true) → Angle A a b = .error .ZeroVector) ∧
      (a.length = b.length → A.eq m A.zero = false → A.eq n A.zero = false →
        ∃ d, Dot A a b = .ok d ∧ Angle A a b = .ok (A.acos (A.div d (A.mul m n)))) := by
  refine ⟨_, _, Lenght_eq A a, Lenght_eq A b, ?_, ?_⟩
  · intro h
    rw [Angle_eq, if_pos h]
  · intro hlen hm hn
    refine ⟨_, Dot_eq A a b hlen, ?_⟩
    rw [Angle_eq, if_neg (fun h => by rcases h with h | h <;> simp_all), if_neg (not_not.mpr hlen)]

/-- C4 at concrete inputs: `Angle([0,0,0], [1,0,0])` panics with "vector is
zero", and `Angle([1,0], [0,1])` returns `acos(0 / (1 * 1))`. -/
theorem Angle_contract_witness :
    Angle (ieee id) [F64.ofNat 0, F64.ofNat 0, F64.ofNat 0]
        [F64.ofNat 1, F64.ofNat 0, F64.ofNat 0] = .error .ZeroVector ∧
    Angle (ieee id) [F64.ofNat 1, F64.ofNat 0] [F64.ofNat 0, F64.ofNat 1]
        = .ok ((ieee id).acos ((ieee id).div (F64.ofNat 0)
            ((ieee id).mul (F64.ofNat 1) (F64.ofNat 1)))) := by
  constructor
  · obtain ⟨m, n, hm, _, h, _⟩ := Angle_contract (ieee id)
      [F64.ofNat 0, F64.ofNat 0, F64.ofNat 0] [F64.ofNat 1, F64.ofNat 0, F64.ofNat 0]
    have hm0 : Lenght (ieee id) [F64.ofNat 0, F64.ofNat 0, F64.ofNat 0] = .ok (F64.ofNat 0) := by
      decide!
    rw [hm0] at hm
    have em := Except.ok.inj hm
    subst em
    exact h (Or.inl (by decide!))
  · obtain ⟨m, n, hm, hn, _, h⟩ := Angle_contract (ieee id)
      [F64.ofNat 1, F64.ofNat 0] [F64.ofNat 0, F64.ofNat 1]
    have hm1 : Lenght (ieee id) [F64.ofNat 1, F64.ofNat 0] = .ok (F64.ofNat 1) := by decide!
    have hn1 : Lenght (ieee id) [F64.ofNat 0, F64.ofNat 1] = .ok (F64.ofNat 1) := by decide!
    rw [hm1] at hm
    rw [hn1] at hn
    have em := Except.ok.inj hm
    have en := Except.ok.inj hn
    subst em en
    obtain ⟨d, hd, hA⟩ := h rfl (by decide!) (by decide!)
    have hd0 : Dot (ieee id) [F64.ofNat 1, F64.ofNat 0] [F64.ofNat 0, F64.ofNat 1]
        = .ok (F64.ofNat 0) := by decide!
    rw [hd0] at hd
    have ed := Except.ok.inj hd
    subst ed
    exact hA

/-- Binary64 multiplication is commutative. -/
theorem F64.mul_comm (x y : F64) : F64.mul x y = F64.mul y x := by
  cases x with
  | nan => cases y <;> rfl
  | inf s =>
    cases y with
    | nan => rfl
    | inf t => simp [F64.mul, Bool.xor_comm]
    | fin t n f => simp [F64.mul, Bool.xor_comm]
  | fin s m e =>
    cases y with
    | nan => rfl
    | inf t => simp [F64.mul, Bool.xor_comm]
    | fin t n f =>
      simp only [F64.mul]
      rw [Bool.xor_comm s t, Nat.mul_comm m n, Int.add_comm e f]

/-- A value that is not NaN compares `==` to itself. -/
theorem F64.eq_self (x : F64) (hx : x ≠ .nan) : F64.eq x x = true := by
  cases x with
  | nan => exact absurd rfl hx
  | inf s => simp [F64.eq]
  | fin s m e => simp [F64.eq]

theorem zipWith_comm_of (f : F → F → F) (hf : ∀ x y, f x y = f y x) (a b : Vector F) :
    List.zipWith f a b = List.zipWith f b a := by
  induction a generalizing b with
  | nil => cases b <;> rfl
  | cons x xs ih =>
    cases b with
    | nil => rfl
    | cons y ys => simp only [List.zipWith_cons_cons, hf x y, ih ys]

/-- `Dot` is symmetric in any arithmetic whose multiplication is commutative. -/
theorem Dot_comm_of (A : Arith F) (hmul : ∀ x y, A.mul x y = A.mul y x) (a b : Vector F) :
    Dot A a b = Dot A b a := by
  by_cases hlen : a.length = b.length
  · rw [Dot_eq A a b hlen, Dot_eq A b a hlen.symm, zipWith_comm_of A.mul hmul a b]
  · rw [Dot_mismatch A a b hlen, Dot_mismatch A b a (fun h => hlen h.symm)]

/-- A value compares `==` to itself exactly when it is not NaN. -/
theorem F64.eq_self_iff (x : F64) : F64.eq x x = true ↔ x ≠ .nan := by
  constructor
  · intro h hx
    rw [hx] at h
    cases h
  · exact F64.eq_self x

/-! ## C7: `Dot` is commutative -/

/-- C7, as the code has it: for equal dimensions `Dot(a, b)` and `Dot(b, a)`
succeed with the same value, and `Dot(a, b) == Dot(b, a)` holds exactly when that
value is not NaN; for unequal dimensions both panic with "different
dimensions". -/
theorem Dot_comm (acos : F64 → F64) (a b : Vector F64) :
    Dot (ieee acos) a b = Dot (ieee acos) b a ∧
    (a.length = b.length →
      ∃ d, Dot (ieee acos) a b = .ok d ∧ Dot (ieee acos) b a = .ok d ∧
        (F64.eq d d = true ↔ d ≠ .nan)) ∧
    (a.length ≠ b.length →
      Dot (ieee acos) a b = .error .DimensionMismatch ∧
      Dot (ieee acos) b a = .error .DimensionMismatch) := by
  have hc : Dot (ieee acos) a b = Dot (ieee acos) b a :=
    Dot_comm_of (ieee acos) F64.mul_comm a b
  refine ⟨hc, ?_, ?_⟩
  · intro hlen
    refine ⟨_, Dot_eq (ieee acos) a b hlen, ?_, F64.eq_self_iff _⟩
    rw [← hc]
    exact Dot_eq (ieee acos) a b hlen
  · intro hlen
    exact ⟨Dot_mismatch _ a b hlen, Dot_mismatch _ b a (fun h => hlen h.symm)⟩

/-- C7 at concrete inputs: `Dot([1,2,3], [4,5,6])` and `Dot([4,5,6], [1,2,3])`
are both `32`, and `Dot([1], [1,2])`, `Dot([1,2], [1])` both panic. -/
theorem Dot_comm_witness :
    (∃ d, Dot (ieee id) [F64.ofNat 1, F64.ofNat 2, F64.ofNat 3]
          [F64.ofNat 4, F64.ofNat 5, F64.ofNat 6] = .ok d ∧
        Dot (ieee id) [F64.ofNat 4, F64.ofNat 5, F64.ofNat 6]
          [F64.ofNat 1, F64.ofNat 2, F64.ofNat 3] = .ok d ∧
        (F64.eq d d = true ↔ d ≠ .nan)) ∧
    (Dot (ieee id) [F64.ofNat 1] [F64.ofNat 1, F64.ofNat 2] = .error .DimensionMismatch ∧
      Dot (ieee id) [F64.ofNat 1, F64.ofNat 2] [F64.ofNat 1] = .error .DimensionMismatch) :=
  ⟨(Dot_comm id [F64.ofNat 1, F64.ofNat 2, F64.ofNat 3]
      [F64.ofNat 4, F64.ofNat 5, F64.ofNat 6]).2.1 (by decide),
   (Dot_comm id [F64.ofNat 1] [F64.ofNat 1, F64.ofNat 2]).2.2 (by decide)⟩

/-- C7 as stated fails in binary64: for `a = [2^700, 2^700]` and
`b = [2^700, -2^700]` the products overflow to `+Inf` and `-Inf`, both dot products
are NaN, and NaN does not compare `==` to NaN. -/
theorem Dot_comm_counterexample :
    (F64.valid (F64.fin false (2 ^ 52) 648) = true ∧
      F64.valid (F64.fin true (2 ^ 52) 648) = true) ∧
    ¬ ∀ (a b : Vector F64), a.length = b.length →
      ∃ d1 d2, Dot (ieee id) a b = .ok d1 ∧ Dot (ieee id) b a = .ok d2 ∧
        F64.eq d1 d2 = true := by
  refine ⟨⟨by decide, by decide⟩, ?_⟩
  intro h
  obtain ⟨d1, d2, h1, h2, he⟩ := h [F64.fin false (2 ^ 52) 648, F64.fin false (2 ^ 52) 648]
    [F64.fin false (2 ^ 52) 648, F64.fin true (2 ^ 52) 648] rfl
  have k1 : Dot (ieee id) [F64.fin false (2 ^ 52) 648, F64.fin false (2 ^ 52) 648]
      [F64.fin false (2 ^ 52) 648, F64.fin true (2 ^ 52) 648] = .ok F64.nan := by decide!
  have k2 : Dot (ieee id) [F64.fin false (2 ^ 52) 648, F64.fin true (2 ^ 52) 648]
      [F64.fin false (2 ^ 52) 648, F64.fin false (2 ^ 52) 648] = .ok F64.nan := by decide!
  rw [k1] at h1
  rw [k2] at h2
  have e1 := Except.ok.inj h1
  have e2 := Except.ok.inj h2
  subst e1 e2
  cases he

theorem F64.round_nonneg (m : Nat) (e : Int) : F64.nonneg (F64.round false m e) = true := by
  unfold F64.round
  simp only []
  split_ifs <;> simp [F64.nonneg, F64.zeroS]

theorem F64.mul_self_nonneg (x : F64) (hx : x ≠ .nan) : F64.nonneg (F64.mul x x) = true := by
  cases x with
  | nan => exact absurd rfl hx
  | inf s => simp [F64.mul, F64.nonneg]
  | fin s m e =>
    simp only [F64.mul, Bool.xor_self]
    exact F64.round_nonneg _ _

theorem F64.signed_nonneg (s : Bool) (m k : Nat) (h : (!s || decide (m = 0)) = true) :
    0 ≤ F64.signed s (m * k) := by
  unfold F64.signed
  cases s with
  | false => simp only [Bool.false_eq_true, if_false]; positivity
  | true =>
    simp only [Bool.not_true, Bool.false_or, decide_eq_true_eq] at h
    subst h
    simp

theorem F64.add_nonneg (x y : F64) (hx : F64.nonneg x = true) (hy : F64.nonneg y = true) :
    F64.nonneg (F64.add x y) = true := by
  cases x with
  | nan => cases hx
  | inf s =>
    cases y with
    | nan => cases hy
    | inf t =>
      simp only [F64.nonneg, Bool.not_eq_true'] at hx hy
      subst hx hy
      rfl
    | fin t n f => exact hx
  | fin s m e =>
    cases y with
    | nan => cases hy
    | inf t => exact hy
    | fin t n f =>
      simp only [F64.nonneg] at hx hy
      have h1 := F64.signed_nonneg s m (2 ^ (e - min e f).toNat) hx
      have h2 := F64.signed_nonneg t n (2 ^ (f - min e f).toNat) hy
      simp only [F64.add]
      split
      · simp [F64.zeroS, F64.nonneg]
      · have hz : decide (F64.signed s (m * 2 ^ (e - min e f).toNat)
            + F64.signed t (n * 2 ^ (f - min e f).toNat) < 0) = false := by
          simp only [decide_eq_false_iff_not]
          omega
        rw [hz]
        exact F64.round_nonneg _ _

theorem F64.foldl_add_nonneg (l : List F64) (hl : ∀ p ∈ l, F64.nonneg p = true) :
    ∀ acc, F64.nonneg acc = true → F64.nonneg (l.foldl F64.add acc) = true := by
  induction l with
  | nil => intro acc h; exact h
  | cons p rest ih =>
    intro acc h
    rw [List.foldl_cons]
    exact ih (fun q hq => hl q (List.mem_cons_of_mem p hq)) _
      (F64.add_nonneg acc p h (hl p (List.mem_cons_self p rest)))

theorem F64.sqrt_nonneg (x : F64) (hx : F64.nonneg x = true) :
    F64.nonneg (F64.sqrt x) = true := by
  cases x with
  | nan => cases hx
  | inf s =>
    simp only [F64.nonneg, Bool.not_eq_true'] at hx
    subst hx
    rfl
  | fin s m e =>
    simp only [F64.sqrt]
    split
    · simp [F64.zeroS, F64.nonneg]
    · rename_i hm
      simp only [F64.nonneg, hm, decide_False, Bool.or_false, Bool.not_eq_true'] at hx
      subst hx
      simp only [Bool.false_eq_true, if_false]
      exact F64.round_nonneg _ _

/-- The root is NaN or not below zero, whatever the operand. -/
theorem F64.sqrt_nan_or_nonneg (x : F64) :
    F64.sqrt x = .nan ∨ F64.nonneg (F64.sqrt x) = true := by
  cases x with
  | nan => exact Or.inl rfl
  | inf s => cases s <;> simp [F64.sqrt, F64.nonneg]
  | fin s m e =>
    simp only [F64.sqrt]
    split
    · right; simp [F64.zeroS, F64.nonneg]
    · split
      · exact Or.inl rfl
      · exact Or.inr (F64.round_nonneg _ _)

theorem F64.le_zero_of_nonneg (x : F64) (hx : F64.nonneg x = true) :
    F64.le F64.zero x = true := by
  cases x with
  | nan => cases hx
  | inf s =>
    simp only [F64.nonneg, Bool.not_eq_true'] at hx
    subst hx
    rfl
  | fin s m e =>
    simp only [F64.nonneg] at hx
    have h1 := F64.signed_nonneg s m (2 ^ (e - min (-1074) e).toNat) hx
    simp only [F64.le, F64.lt, F64.zero, F64.zeroS, Bool.or_eq_true, decide_eq_true_eq]
    simp only [F64.signed, Bool.false_eq_true, if_false, Nat.zero_mul, Nat.cast_zero] at h1 ⊢
    omega

theorem F64.not_lt_zero_of_nonneg (x : F64) (hx : F64.nonneg x = true) :
    F64.lt x F64.zero = false := by
  cases x with
  | nan => cases hx
  | inf s =>
    simp only [F64.nonneg, Bool.not_eq_true'] at hx
    subst hx
    rfl
  | fin s m e =>
    simp only [F64.nonneg] at hx
    have h1 := F64.signed_nonneg s m (2 ^ (e - min e (-1074)).toNat) hx
    simp only [F64.lt, F64.zero, F64.zeroS, decide_eq_false_iff_not]
    simp only [F64.signed, Bool.false_eq_true, if_false, Nat.zero_mul, Nat.cast_zero] at h1 ⊢
    omega

/-- The values that compare `==` to zero are the zeros of either sign. -/
theorem F64.eq_zero_iff (x : F64) : F64.eq x F64.zero = true ↔ ∃ s e, x = .fin s 0 e := by
  cases x with
  | nan => simp [F64.eq]
  | inf s => simp [F64.eq, F64.zero, F64.zeroS]
  | fin s m e =>
    simp only [F64.eq, F64.zero, F64.zeroS, F64.signed, decide_eq_true_eq, Bool.false_eq_true,
      if_false, Nat.zero_mul, Nat.cast_zero, F64.fin.injEq]
    constructor
    · intro h
      have hm : m = 0 := by
        by_contra hm
        have hpos : 0 < m * 2 ^ (e - min e (-1074)).toNat := by positivity
        cases s with
        | false => simp only [Bool.false_eq_true, if_false] at h; omega
        | true => simp only [if_true] at h; omega
      exact ⟨s, e, rfl, hm, rfl⟩
    · rintro ⟨s1, e1, _, hm, _⟩
      subst hm
      cases s <;> simp

theorem F64.mul_zero_self (s : Bool) (e : Int) :
    F64.mul (.fin s 0 e) (.fin s 0 e) = F64.zero := by
  simp [F64.mul, F64.round, F64.zero]

theorem F64.dot_zero (a : Vector F64) (ha : ∀ x ∈ a, F64.eq x F64.zero = true) :
    (List.zipWith F64.mul a a).foldl F64.add F64.zero = F64.zero := by
  induction a with
  | nil => rfl
  | cons x xs ih =>
    obtain ⟨s, e, hx⟩ := (F64.eq_zero_iff x).mp (ha x (List.mem_cons_self x xs))
    subst hx
    rw [List.zipWith_cons_cons, List.foldl_cons, F64.mul_zero_self]
    have h0 : F64.add F64.zero F64.zero = F64.zero := by decide
    rw [h0]
    exact ih (fun y hy => ha y (List.mem_cons_of_mem _ hy))

theorem F64.dot_self_nonneg (a : Vector F64) (ha : ∀ x ∈ a, x ≠ F64.nan) :
    F64.nonneg ((List.zipWith F64.mul a a).foldl F64.add F64.zero) = true := by
  apply F64.foldl_add_nonneg
  · intro p hp
    have key : ∀ l : List F64, (∀ x ∈ l, x ≠ F64.nan) →
        ∀ q ∈ List.zipWith F64.mul l l, F64.nonneg q = true := by
      intro l
      induction l with
      | nil => intro _ q hq; cases hq
      | cons x xs ih =>
        intro hl q hq
        rw [List.zipWith_cons_cons, List.mem_cons] at hq
        rcases hq with hq | hq
        · rw [hq]
          exact F64.mul_self_nonneg x (hl x (List.mem_cons_self x xs))
        · exact ih (fun y hy => hl y (List.mem_cons_of_mem _ hy)) q hq
    exact key a ha p hp
  · rfl

/-- The digit count of a positive number brackets it between two powers of two. -/
theorem F64.bitLenAux_spec : ∀ (fuel n : Nat), n ≤ fuel → 0 < n →
    2 ^ (F64.bitLenAux fuel n - 1) ≤ n ∧ n < 2 ^ F64.bitLenAux fuel n := by
  intro fuel
  induction fuel with
  | zero => intro n h0 hn; omega
  | succ fuel ih =>
    intro n hle hn
    have hne : n ≠ 0 := by omega
    simp only [F64.bitLenAux, if_neg hne]
    by_cases h1 : n / 2 = 0
    · have hn1 : n = 1 := by omega
      subst hn1
      cases fuel <;> simp [F64.bitLenAux]
    · have hpos : 0 < n / 2 := Nat.pos_of_ne_zero h1
      obtain ⟨hlo, hhi⟩ := ih (n / 2) (by omega) hpos
      have hb : 0 < F64.bitLenAux fuel (n / 2) := by
        by_contra hb
        have : F64.bitLenAux fuel (n / 2) = 0 := by omega
        rw [this] at hhi
        simp at hhi
        omega
      constructor
      · have : F64.bitLenAux fuel (n / 2) + 1 - 1 = (F64.bitLenAux fuel (n / 2) - 1) + 1 := by omega
        rw [this, pow_succ]
        omega
      · rw [pow_succ]
        omega

theorem F64.bitLen_spec (n : Nat) (hn : 0 < n) :
    2 ^ (F64.bitLen n - 1) ≤ n ∧ n < 2 ^ F64.bitLen n :=
  F64.bitLenAux_spec n n (Nat.le_refl n) hn

theorem F64.round_bounded (s : Bool) (m : Nat) (e : Int) :
    F64.bounded (F64.round s m e) = true := by
  unfold F64.round
  simp only []
  split_ifs <;> simp [F64.bounded, F64.zeroS] <;> omega

/-- Rounding a non-zero number whose exponent is not below `-1074` never gives
zero: there is no underflow above the smallest binary64 number. -/
theorem F64.round_ne_zero (s : Bool) (m : Nat) (e : Int) (hm : m ≠ 0) (he : -1074 ≤ e) :
    F64.eq (F64.round s m e) F64.zero = false := by
  have hpos : 0 < m := Nat.pos_of_ne_zero hm
  obtain ⟨hlo, hhi⟩ := F64.bitLen_spec m hpos
  have key : ∀ (q : Nat) (e2 : Int), q ≠ 0 → F64.eq (.fin s q e2) F64.zero = false := by
    intro q e2 hq
    cases h : F64.eq (.fin s q e2) F64.zero with
    | false => rfl
    | true =>
      obtain ⟨s1, e1, h1⟩ := (F64.eq_zero_iff _).mp h
      simp only [F64.fin.injEq] at h1
      exact absurd h1.2.1 hq
  have hq : ¬ max (e + (F64.bitLen m : Int) - 53) (-1074) ≤ e →
      2 ^ 52 ≤ m / 2 ^ (max (e + (F64.bitLen m : Int) - 53) (-1074) - e).toNat := by
    intro h1
    have he1 : max (e + (F64.bitLen m : Int) - 53) (-1074) = e + (F64.bitLen m : Int) - 53 := by
      omega
    have hk : (e + (F64.bitLen m : Int) - 53 - e).toNat = F64.bitLen m - 53 := by omega
    have hL : 53 < F64.bitLen m := by omega
    rw [he1, hk, Nat.le_div_iff_mul_le (by positivity), ← pow_add]
    have : 52 + (F64.bitLen m - 53) = F64.bitLen m - 1 := by omega
    rw [this]
    exact hlo
  unfold F64.round
  simp only [if_neg hm]
  split_ifs with h1
  all_goals first
    | rfl
    | (apply key; positivity)
    | (apply key; have := hq h1; omega)

theorem F64.good_cases (x : F64) (hx : F64.good x = true) :
    x = .nan ∨ (F64.nonneg x = true ∧ F64.bounded x = true) := by
  cases x with
  | nan => exact Or.inl rfl
  | inf s => right; simpa [F64.good] using hx
  | fin s m e => right; simpa [F64.good] using hx

theorem F64.good_of (x : F64) (h1 : F64.nonneg x = true) (h2 : F64.bounded x = true) :
    F64.good x = true := by
  cases x <;> simp_all [F64.good]

theorem F64.mul_self_good (x : F64) : F64.good (F64.mul x x) = true := by
  cases x with
  | nan => rfl
  | inf s => simp [F64.mul, F64.good, F64.nonneg, F64.bounded]
  | fin s m e =>
    have h1 := F64.mul_self_nonneg (.fin s m e) (by intro h; cases h)
    have h2 : F64.bounded (F64.mul (.fin s m e) (.fin s m e)) = true := F64.round_bounded _ _ _
    exact F64.good_of _ h1 h2

theorem F64.add_bounded (x y : F64) : F64.bounded (F64.add x y) = true := by
  cases x with
  | nan => cases y <;> rfl
  | inf s =>
    cases y with
    | nan => rfl
    | inf t => simp only [F64.add]; split <;> rfl
    | fin t n f => rfl
  | fin s m e =>
    cases y with
    | nan => rfl
    | inf t => rfl
    | fin t n f =>
      simp only [F64.add]
      split
      · simp [F64.zeroS, F64.bounded]
      · exact F64.round_bounded _ _ _

theorem F64.add_nan_left (y : F64) : F64.add .nan y = .nan := by
  cases y <;> rfl

theorem F64.add_nan_right (x : F64) : F64.add x .nan = .nan := by
  cases x <;> rfl

theorem F64.add_good (x y : F64) (hx : F64.good x = true) (hy : F64.good y = true) :
    F64.good (F64.add x y) = true := by
  rcases F64.good_cases x hx with h | ⟨h1, _⟩
  · rw [h, F64.add_nan_left]; rfl
  · rcases F64.good_cases y hy with h | ⟨h2, _⟩
    · rw [h, F64.add_nan_right]; rfl
    · exact F64.good_of _ (F64.add_nonneg x y h1 h2) (F64.add_bounded x y)

theorem F64.signed_eq_zero (s : Bool) (m k : Nat) (hk : 0 < k) (h : F64.signed s (m * k) = 0) :
    m = 0 := by
  by_contra hm
  have hpos : 0 < m * k := Nat.mul_pos (Nat.pos_of_ne_zero hm) hk
  unfold F64.signed at h
  split at h <;> omega

theorem F64.eq_nan_zero : F64.eq .nan F64.zero = false := rfl

/-- A sum of two good values is zero only if both are zero. -/
theorem F64.add_eq_zero (x y : F64) (hx : F64.good x = true) (hy : F64.good y = true)
    (h : F64.eq (F64.add x y) F64.zero = true) :
    F64.eq x F64.zero = true ∧ F64.eq y F64.zero = true := by
  rcases F64.good_cases x hx with hxn | ⟨hx1, hx2⟩
  · rw [hxn, F64.add_nan_left] at h; cases h
  rcases F64.good_cases y hy with hyn | ⟨hy1, hy2⟩
  · rw [hyn, F64.add_nan_right] at h; cases h
  cases x with
  | nan => cases hx1
  | inf s =>
    cases y with
    | nan => cases hy1
    | inf t =>
      simp only [F64.add] at h
      split at h <;> cases h
    | fin t n f => cases h
  | fin s m e =>
    cases y with
    | nan => cases hy1
    | inf t => cases h
    | fin t n f =>
      simp only [F64.nonneg] at hx1 hy1
      simp only [F64.bounded, decide_eq_true_eq] at hx2 hy2
      have h1 := F64.signed_nonneg s m (2 ^ (e - min e f).toNat) hx1
      have h2 := F64.signed_nonneg t n (2 ^ (f - min e f).toNat) hy1
      simp only [F64.add] at h
      split at h
      · rename_i hz
        have hm : m = 0 :=
          F64.signed_eq_zero s m (2 ^ (e - min e f).toNat) (by positivity) (by omega)
        have hn : n = 0 :=
          F64.signed_eq_zero t n (2 ^ (f - min e f).toNat) (by positivity) (by omega)
        subst hm hn
        exact ⟨(F64.eq_zero_iff _).mpr ⟨s, e, rfl⟩, (F64.eq_zero_iff _).mpr ⟨t, f, rfl⟩⟩
      · rename_i hz
        have := F64.round_ne_zero
          (decide (F64.signed s (m * 2 ^ (e - min e f).toNat)
            + F64.signed t (n * 2 ^ (f - min e f).toNat) < 0))
          (F64.signed s (m * 2 ^ (e - min e f).toNat)
            + F64.signed t (n * 2 ^ (f - min e f).toNat)).natAbs (min e f)
          (by omega) (by omega)
        rw [this] at h
        cases h

theorem F64.foldl_eq_zero (l : List F64) (hl : ∀ p ∈ l, F64.good p = true) :
    ∀ acc, F64.good acc = true → F64.eq (l.foldl F64.add acc) F64.zero = true →
      F64.eq acc F64.zero = true ∧ ∀ p ∈ l, F64.eq p F64.zero = true := by
  induction l with
  | nil =>
    intro acc _ h
    exact ⟨h, fun p hp => by cases hp⟩
  | cons q rest ih =>
    intro acc hacc h
    rw [List.foldl_cons] at h
    have hq := hl q (List.mem_cons_self q rest)
    obtain ⟨h1, h2⟩ := ih (fun p hp => hl p (List.mem_cons_of_mem q hp)) _
      (F64.add_good acc q hacc hq) h
    obtain ⟨h3, h4⟩ := F64.add_eq_zero acc q hacc hq h1
    refine ⟨h3, fun p hp => ?_⟩
    rcases List.mem_cons.mp hp with hp | hp
    · rw [hp]; exact h4
    · exact h2 p hp

/-- The root of a good value is zero only if the value is zero. -/
theorem F64.sqrt_eq_zero (d : F64) (hd : F64.good d = true)
    (h : F64.eq (F64.sqrt d) F64.zero = true) : F64.eq d F64.zero = true := by
  cases d with
  | nan => cases h
  | inf s => cases s <;> cases h
  | fin s m e =>
    by_cases hm : m = 0
    · subst hm
      exact (F64.eq_zero_iff _).mpr ⟨s, e, rfl⟩
    · simp only [F64.good, F64.nonneg, F64.bounded, hm, decide_False, Bool.or_false,
        Bool.and_eq_true, Bool.not_eq_true', decide_eq_true_eq] at hd
      obtain ⟨hs, he⟩ := hd
      subst hs
      simp only [F64.sqrt, if_neg hm, Bool.false_eq_true, if_false] at h
      rw [F64.round_ne_zero] at h
      · cases h
      · intro h0
        have hr : F64.isqrt (m * 2 ^ (128 + (e % 2).toNat)) = 0 := by omega
        rw [hr] at h0
        have hpos : 0 < m * 2 ^ (128 + (e % 2).toNat) := by positivity
        split at h0 <;> omega
      · omega

theorem F64.add_zero_of_zero (x y : F64) (hx : F64.eq x F64.zero = true)
    (hy : F64.eq y F64.zero = true) : F64.eq (F64.add x y) F64.zero = true := by
  obtain ⟨s, e, hx⟩ := (F64.eq_zero_iff x).mp hx
  obtain ⟨t, f, hy⟩ := (F64.eq_zero_iff y).mp hy
  subst hx hy
  apply (F64.eq_zero_iff _).mpr
  refine ⟨s && t, -1074, ?_⟩
  simp [F64.add, F64.signed, F64.zeroS]

theorem F64.foldl_zero_of_zero (l : List F64) (hl : ∀ p ∈ l, F64.eq p F64.zero = true) :
    ∀ acc, F64.eq acc F64.zero = true → F64.eq (l.foldl F64.add acc) F64.zero = true := by
  induction l with
  | nil => intro acc h; exact h
  | cons q rest ih =>
    intro acc h
    rw [List.foldl_cons]
    exact ih (fun p hp => hl p (List.mem_cons_of_mem q hp)) _
      (F64.add_zero_of_zero acc q h (hl q (List.mem_cons_self q rest)))

theorem F64.sqrt_zero_of_zero (d : F64) (h : F64.eq d F64.zero = true) :
    F64.eq (F64.sqrt d) F64.zero = true := by
  obtain ⟨s, e, hd⟩ := (F64.eq_zero_iff d).mp h
  subst hd
  apply (F64.eq_zero_iff _).mpr
  exact ⟨s, -1074, by simp [F64.sqrt, F64.zeroS]⟩

theorem mem_zipWith_self (f : F → F → F) (a : Vector F) (p : F) :
    p ∈ List.zipWith f a a ↔ ∃ x ∈ a, p = f x x := by
  induction a with
  | nil => simp
  | cons y ys ih =>
    rw [List.zipWith_cons_cons, List.mem_cons, ih]
    constructor
    · rintro (h | ⟨x, hx, h⟩)
      · exact ⟨y, List.mem_cons_self y ys, h⟩
      · exact ⟨x, List.mem_cons_of_mem y hx, h⟩
    · rintro ⟨x, hx, h⟩
      rcases List.mem_cons.mp hx with hx | hx
      · left; rw [h, hx]
      · right; exact ⟨x, hx, h⟩

/-- The root of the sum of squares is zero exactly when every square is zero. -/
theorem F64.length_zero_iff (a : Vector F64) :
    F64.eq (F64.sqrt ((List.zipWith F64.mul a a).foldl F64.add F64.zero)) F64.zero = true ↔
      ∀ x ∈ a, F64.eq (F64.mul x x) F64.zero = true := by
  have hgood : ∀ p ∈ List.zipWith F64.mul a a, F64.good p = true := by
    intro p hp
    obtain ⟨x, _, hpx⟩ := (mem_zipWith_self F64.mul a p).mp hp
    rw [hpx]
    exact F64.mul_self_good x
  constructor
  · intro h
    have hg : F64.good ((List.zipWith F64.mul a a).foldl F64.add F64.zero) = true := by
      have : ∀ (l : List F64), (∀ p ∈ l, F64.good p = true) → ∀ acc, F64.good acc = true →
          F64.good (l.foldl F64.add acc) = true := by
        intro l
        induction l with
        | nil => intro _ acc h; exact h
        | cons q rest ih =>
          intro hl acc hacc
          rw [List.foldl_cons]
          exact ih (fun p hp => hl p (List.mem_cons_of_mem q hp)) _
            (F64.add_good acc q hacc (hl q (List.mem_cons_self q rest)))
      exact this _ hgood F64.zero rfl
    have h1 := F64.sqrt_eq_zero _ hg h
    obtain ⟨_, h2⟩ := F64.foldl_eq_zero _ hgood F64.zero rfl h1
    intro x hx
    exact h2 _ ((mem_zipWith_self F64.mul a _).mpr ⟨x, hx, rfl⟩)
  · intro h
    apply F64.sqrt_zero_of_zero
    apply F64.foldl_zero_of_zero
    · intro p hp
      obtain ⟨x, hx, hpx⟩ := (mem_zipWith_self F64.mul a p).mp hp
      rw [hpx]
      exact h x hx
    · rfl

/-! ## C6: `Lenght` -/

/-- C6, as the code has it: `Lenght(a)` never panics and is `sqrt(Dot(a, a))`;
it never compares below zero, and it is `>= 0` when no element of `a` is NaN; it
is `== 0` exactly when every square `a[i] * a[i]` is zero, which is so when
every element of `a` is zero (so also for the empty vector). -/
theorem Lenght_contract (acos : F64 → F64) (a : Vector F64) :
    ∃ d, Dot (ieee acos) a a = .ok d ∧ Lenght (ieee acos) a = .ok (F64.sqrt d) ∧
      F64.lt (F64.sqrt d) F64.zero = false ∧
      ((∀ x ∈ a, x ≠ F64.nan) → F64.le F64.zero (F64.sqrt d) = true) ∧
      (F64.eq (F64.sqrt d) F64.zero = true ↔ ∀ x ∈ a, F64.eq (F64.mul x x) F64.zero = true) ∧
      ((∀ x ∈ a, F64.eq x F64.zero = true) → F64.eq (F64.sqrt d) F64.zero = true) := by
  refine ⟨_, Dot_eq (ieee acos) a a rfl, Lenght_eq (ieee acos) a, ?_, ?_, ?_, ?_⟩
  · rcases F64.sqrt_nan_or_nonneg
      ((List.zipWith (ieee acos).mul a a).foldl (ieee acos).add (ieee acos).zero) with h | h
    · rw [h]
      rfl
    · exact F64.not_lt_zero_of_nonneg _ h
  · intro ha
    exact F64.le_zero_of_nonneg _ (F64.sqrt_nonneg _ (F64.dot_self_nonneg a ha))
  · exact F64.length_zero_iff a
  · intro ha
    show F64.eq (F64.sqrt ((List.zipWith F64.mul a a).foldl F64.add F64.zero)) F64.zero = true
    rw [F64.dot_zero a ha]
    decide

/-- C6 at concrete inputs: `Lenght([3,4])` is `5`, which is `>= 0`, and
`Lenght([0,0])` is `== 0`. -/
theorem Lenght_contract_witness :
    (Lenght (ieee id) [F64.ofNat 3, F64.ofNat 4] = .ok (F64.ofNat 5) ∧
      F64.le F64.zero (F64.ofNat 5) = true) ∧
    ∃ d, Lenght (ieee id) [F64.ofNat 0, F64.ofNat 0] = .ok (F64.sqrt d) ∧
      F64.eq (F64.sqrt d) F64.zero = true := by
  refine ⟨⟨by decide!, by decide!⟩, ?_⟩
  obtain ⟨d, _, hl, _, _, _, hz⟩ := Lenght_contract id [F64.ofNat 0, F64.ofNat 0]
  exact ⟨d, hl, hz (by decide)⟩

/-- C6 as stated fails: `2^-600` is a binary64 number and is not zero, but its
square underflows to zero, so `Lenght([2^-600])` is `== 0`. -/
theorem Lenght_claim_counterexample :
    F64.valid (F64.fin false (2 ^ 52) (-652)) = true ∧
    ¬ ∀ (a : Vector F64), ∃ m, Lenght (ieee id) a = .ok m ∧
      (F64.eq m F64.zero = true ↔ ∀ x ∈ a, F64.eq x F64.zero = true) := by
  refine ⟨by decide, ?_⟩
  intro h
  obtain ⟨m, hm, hiff⟩ := h [F64.fin false (2 ^ 52) (-652)]
  have hl : Lenght (ieee id) [F64.fin false (2 ^ 52) (-652)] = .ok F64.zero := by decide!
  rw [hl] at hm
  have em := Except.ok.inj hm
  subst em
  have h2 := hiff.mp (by decide) (F64.fin false (2 ^ 52) (-652)) (List.mem_singleton.mpr rfl)
  revert h2
  decide!

/-! ## C11: `Sum` -/

/-- C11: `Sum(a)` never panics and is the fold of `+` from left to right over the
elements of `a`, starting from the zero value; the sum of the empty vector is
zero. -/
theorem Sum_contract (A : Arith F) (a : Vector F) :
    Sum A a = .ok (a.foldl A.add A.zero) ∧
    Sum A [] = .ok A.zero ∧
    (∀ (x y z : F), Sum A [x, y, z] = .ok (A.add (A.add (A.add A.zero x) y) z)) :=
  ⟨Sum_eq A a, rfl, fun _ _ _ => rfl⟩

/-- C11 at concrete inputs: `Sum([1,2,3])` is `6` and `Sum([])` is `0`. -/
theorem Sum_contract_witness :
    Sum (ieee id) [F64.ofNat 1, F64.ofNat 2, F64.ofNat 3] = .ok (F64.ofNat 6) ∧
    Sum (ieee id) [] = .ok F64.zero := by
  refine ⟨?_, (Sum_contract (ieee id) []).2.1⟩
  rw [(Sum_contract (ieee id) [F64.ofNat 1, F64.ofNat 2, F64.ofNat 3]).1]
  decide!

/-! ## C12: `Negate` -/

/-- C12: `Negate(a)` always succeeds and returns a vector of the dimension of
`a` whose element at every index `i` is `-a[i]`. -/
theorem Negate_contract (A : Arith F) (a : Vector F) :
    ∃ w, Negate A a = .ok w ∧ w.length = a.length ∧
      ∀ (i : Nat) (x : F), a[i]? = some x → w[i]? = some (A.neg x) := by
  refine ⟨List.map A.neg a, Negate_eq A a, List.length_map a A.neg, ?_⟩
  intro i x hx
  simp [hx]

/-- C12 at a concrete input: `Negate([1,2])` is `[-1,-2]`. -/
theorem Negate_contract_witness :
    Negate (ieee id) [F64.ofNat 1, F64.ofNat 2]
      = .ok [F64.neg (F64.ofNat 1), F64.neg (F64.ofNat 2)] := by
  obtain ⟨w, hw, hlen, hel⟩ := Negate_contract (ieee id) [F64.ofNat 1, F64.ofNat 2]
  rw [hw]
  have h0 := hel 0 _ rfl
  have h1 := hel 1 _ rfl
  match w, hlen, h0, h1 with
  | [u, v], _, h0, h1 =>
    simp only [List.getElem?_cons_zero, List.getElem?_cons_succ, Option.some.injEq] at h0 h1
    rw [h0, h1]
    rfl

/-! ## C13: `Equal` is reflexive at tolerance zero -/

/-- The difference of a value with itself is NaN or positive zero. -/
theorem F64.sub_self (x : F64) : F64.sub x x = .nan ∨ F64.sub x x = F64.zero := by
  cases x with
  | nan => exact Or.inl rfl
  | inf s => cases s <;> exact Or.inl rfl
  | fin s m e =>
    right
    have hz : F64.signed s (m * 2 ^ (e - min e e).toNat)
        + F64.signed (!s) (m * 2 ^ (e - min e e).toNat) = 0 := by
      cases s <;> simp [F64.signed]
    simp only [F64.sub, F64.neg, F64.add, hz, if_true]
    cases s <;> rfl

/-- No value differs from itself by more than zero. -/
theorem F64.not_gt_sub_self (x : F64) :
    F64.gt (F64.abs (F64.sub x x)) F64.zero = false := by
  rcases F64.sub_self x with h | h <;> rw [h] <;> rfl

/-- C13: `Equal(a, a, 0)` is `true` for every vector `a`, the empty vector and
vectors with NaN or infinite elements included. -/
theorem Equal_refl (acos : F64 → F64) (a : Vector F64) :
    Equal (ieee acos) a a F64.zero = .ok true := by
  rw [Equal_true_iff]
  refine ⟨rfl, ?_⟩
  intro i x y hx hy
  rw [hx] at hy
  cases hy
  exact F64.not_gt_sub_self x

/-! ## C18: `Dot` is additive in its first argument -/

/-- In exact arithmetic the sum of products is additive in the first factor,
from any two starting sums. -/
theorem exact_dot_add {K : Type} [LinearOrderedField K] (a b c : List K) :
    ∀ (s t : K), a.length = b.length → b.length = c.length →
      (List.zipWith (fun x y => x * y) (List.zipWith (fun x y => x + y) a b) c).foldl
          (fun x y => x + y) (s + t)
        = (List.zipWith (fun x y => x * y) a c).foldl (fun x y => x + y) s
          + (List.zipWith (fun x y => x * y) b c).foldl (fun x y => x + y) t := by
  induction a generalizing b c with
  | nil =>
    intro s t h1 h2
    cases b with
    | nil => simp
    | cons _ _ => cases h1
  | cons x xs ih =>
    intro s t h1 h2
    cases b with
    | nil => cases h1
    | cons y ys =>
      cases c with
      | nil => cases h2
      | cons z zs =>
        simp only [List.zipWith_cons_cons, List.foldl_cons]
        have e : s + t + (x + y) * z = (s + x * z) + (t + y * z) := by ring
        rw [e]
        exact ih ys zs _ _ (by simpa using h1) (by simpa using h2)

/-- C18: over exact arithmetic (any ordered field, the real numbers among them),
for vectors `a`, `b`, `c` of one dimension, `Add(a, b)` and the three dot
products succeed, and `Dot(Add(a, b), c) = Dot(a, c) + Dot(b, c)`. -/
theorem Dot_add_left {K : Type} [LinearOrderedField K] (sqrt acos : K → K) (a b c : Vector K)
    (hab : a.length = b.length) (hbc : b.length = c.length) :
    ∃ s d d1 d2, Add (exactArith K sqrt acos) a b = .ok s ∧
      Dot (exactArith K sqrt acos) s c = .ok d ∧
      Dot (exactArith K sqrt acos) a c = .ok d1 ∧
      Dot (exactArith K sqrt acos) b c = .ok d2 ∧
      d = d1 + d2 := by
  have hs : (List.zipWith (exactArith K sqrt acos).add a b).length = c.length := by
    simp [hab, hbc]
  refine ⟨_, _, _, _, Add_eq _ a b hab, Dot_eq _ _ c hs, Dot_eq _ a c (hab.trans hbc),
    Dot_eq _ b c hbc, ?_⟩
  have h := exact_dot_add a b c 0 0 hab hbc
  simp only [add_zero] at h
  exact h

/-- C18 at concrete real inputs: `Dot(Add([1,2], [3,4]), [5,6])` is the sum of
`Dot([1,2], [5,6])` and `Dot([3,4], [5,6])`. -/
theorem Dot_add_left_witness :
    ∃ s d d1 d2, Add (exactArith ℝ Real.sqrt Real.arccos) [1, 2] [3, 4] = .ok s ∧
      Dot (exactArith ℝ Real.sqrt Real.arccos) s [5, 6] = .ok d ∧
      Dot (exactArith ℝ Real.sqrt Real.arccos) [1, 2] [5, 6] = .ok d1 ∧
      Dot (exactArith ℝ Real.sqrt Real.arccos) [3, 4] [5, 6] = .ok d2 ∧
      d = d1 + d2 :=
  Dot_add_left Real.sqrt Real.arccos [1, 2] [3, 4] [5, 6] rfl rfl

/-! ## C16: `Cross` is orthogonal to its operands -/

/-- C16, over exact arithmetic: for 3-dimensional `a`, `b` the vector
`Cross(a, b)` exists and `Dot(Cross(a, b), a) = 0` and `Dot(Cross(a, b), b) = 0`. -/
theorem Cross_orthogonal {K : Type} [LinearOrderedField K] (sqrt acos : K → K) (a b : Vector K)
    (ha : a.length = 3) (hb : b.length = 3) :
    ∃ w, Cross (exactArith K sqrt acos) a b = .ok w ∧
      Dot (exactArith K sqrt acos) w a = .ok 0 ∧
      Dot (exactArith K sqrt acos) w b = .ok 0 := by
  match a, ha, b, hb with
  | [a0, a1, a2], _, [b0, b1, b2], _ =>
    refine ⟨[a1 * b2 - a2 * b1, a2 * b0 - a0 * b2, a0 * b1 - a1 * b0], rfl, ?_, ?_⟩
    · rw [Dot_eq (exactArith K sqrt acos) [a1 * b2 - a2 * b1, a2 * b0 - a0 * b2,
        a0 * b1 - a1 * b0] [a0, a1, a2] rfl]
      congr 1
      simp only [exactArith, List.zipWith_cons_cons, List.zipWith_nil_right, List.foldl_cons,
        List.foldl_nil]
      ring
    · rw [Dot_eq (exactArith K sqrt acos) [a1 * b2 - a2 * b1, a2 * b0 - a0 * b2,
        a0 * b1 - a1 * b0] [b0, b1, b2] rfl]
      congr 1
      simp only [exactArith, List.zipWith_cons_cons, List.zipWith_nil_right, List.foldl_cons,
        List.foldl_nil]
      ring

/-- C16 at concrete real inputs: `Cross([1,2,3], [4,5,6])` is orthogonal to both
operands. -/
theorem Cross_orthogonal_witness :
    ∃ w, Cross (exactArith ℝ Real.sqrt Real.arccos) [1, 2, 3] [4, 5, 6] = .ok w ∧
      Dot (exactArith ℝ Real.sqrt Real.arccos) w [1, 2, 3] = .ok 0 ∧
      Dot (exactArith ℝ Real.sqrt Real.arccos) w [4, 5, 6] = .ok 0 :=
  Cross_orthogonal Real.sqrt Real.arccos [1, 2, 3] [4, 5, 6] rfl rfl

/-- C16 as stated fails in binary64: for `a = [0.1, 0.2, 0.3]` and
`b = [0.4, 0.5, 0.6]` the product `Dot(Cross(a, b), a)` is not `== 0` (it is about
`-1.7e-18`). -/
theorem Cross_orthogonal_counterexample :
    ¬ ∀ (a b : Vector F64), a.length = 3 → b.length = 3 →
      ∃ w d, Cross (ieee id) a b = .ok w ∧ Dot (ieee id) w a = .ok d ∧
        F64.eq d F64.zero = true := by
  intro h
  obtain ⟨w, d, hw, hd, hz⟩ := h [F64.dec 1 10, F64.dec 2 10, F64.dec 3 10]
    [F64.dec 4 10, F64.dec 5 10, F64.dec 6 10] rfl rfl
  have hw1 : Cross (ieee id) [F64.dec 1 10, F64.dec 2 10, F64.dec 3 10]
      [F64.dec 4 10, F64.dec 5 10, F64.dec 6 10]
      = .ok [F64.fin true 8646911284551352 (-58), F64.fin false 8646911284551352 (-57),
          F64.fin true 8646911284551356 (-58)] := by decide!
  rw [hw1] at hw
  have ew := Except.ok.inj hw
  subst ew
  have hd1 : Dot (ieee id) [F64.fin true 8646911284551352 (-58),
      F64.fin false 8646911284551352 (-57), F64.fin true 8646911284551356 (-58)]
      [F64.dec 1 10, F64.dec 2 10, F64.dec 3 10] = .ok (F64.fin true (2 ^ 52) (-111)) := by
    decide!
  rw [hd1] at hd
  have ed := Except.ok.inj hd
  subst ed
  revert hz
  decide!

theorem F64.neg_round (s : Bool) (m : Nat) (e : Int) :
    F64.neg (F64.round s m e) = F64.round (!s) m e := by
  unfold F64.round
  simp only []
  split_ifs <;> rfl

theorem F64.round_ne_nan (s : Bool) (m : Nat) (e : Int) : F64.round s m e ≠ .nan := by
  unfold F64.round
  simp only []
  split_ifs <;> intro h <;> cases h

theorem F64.signed_not (s : Bool) (m : Nat) : F64.signed (!s) m = - F64.signed s m := by
  cases s <;> simp [F64.signed]

/-- Swapping the operands of a subtraction negates the difference: `x - y` and
`-(y - x)` are both NaN, or they compare equal. -/
theorem F64.sub_antisymm (x y : F64) :
    (F64.sub x y = .nan ∧ F64.neg (F64.sub y x) = .nan) ∨
      F64.eq (F64.sub x y) (F64.neg (F64.sub y x)) = true := by
  cases x with
  | nan => left; cases y <;> exact ⟨rfl, rfl⟩
  | inf s =>
    cases y with
    | nan => left; exact ⟨rfl, rfl⟩
    | inf t => cases s <;> cases t <;> decide
    | fin t n f => right; cases s <;> rfl
  | fin s m e =>
    cases y with
    | nan => left; exact ⟨rfl, rfl⟩
    | inf t => right; cases t <;> rfl
    | fin t n f =>
      right
      have hxy : F64.sub (.fin s m e) (.fin t n f)
          = if F64.signed s (m * 2 ^ (e - min e f).toNat)
                + -F64.signed t (n * 2 ^ (f - min e f).toNat) = 0 then F64.zeroS (s && !t)
            else F64.round (decide (F64.signed s (m * 2 ^ (e - min e f).toNat)
                + -F64.signed t (n * 2 ^ (f - min e f).toNat) < 0))
              (F64.signed s (m * 2 ^ (e - min e f).toNat)
                + -F64.signed t (n * 2 ^ (f - min e f).toNat)).natAbs (min e f) := by
        simp only [F64.sub, F64.neg, F64.add, F64.signed_not]
      have hyx : F64.sub (.fin t n f) (.fin s m e)
          = if F64.signed t (n * 2 ^ (f - min e f).toNat)
                + -F64.signed s (m * 2 ^ (e - min e f).toNat) = 0 then F64.zeroS (t && !s)
            else F64.round (decide (F64.signed t (n * 2 ^ (f - min e f).toNat)
                + -F64.signed s (m * 2 ^ (e - min e f).toNat) < 0))
              (F64.signed t (n * 2 ^ (f - min e f).toNat)
                + -F64.signed s (m * 2 ^ (e - min e f).toNat)).natAbs (min e f) := by
        simp only [F64.sub, F64.neg, F64.add, F64.signed_not, min_comm f e]
      rw [hxy, hyx]
      by_cases hz : F64.signed s (m * 2 ^ (e - min e f).toNat)
          + -F64.signed t (n * 2 ^ (f - min e f).toNat) = 0
      · have hz2 : F64.signed t (n * 2 ^ (f - min e f).toNat)
            + -F64.signed s (m * 2 ^ (e - min e f).toNat) = 0 := by omega
        rw [if_pos hz, if_pos hz2]
        simp [F64.zeroS, F64.neg, F64.eq, F64.signed]
      · have hz2 : ¬ F64.signed t (n * 2 ^ (f - min e f).toNat)
            + -F64.signed s (m * 2 ^ (e - min e f).toNat) = 0 := by omega
        rw [if_neg hz, if_neg hz2, F64.neg_round]
        have e1 : (F64.signed t (n * 2 ^ (f - min e f).toNat)
            + -F64.signed s (m * 2 ^ (e - min e f).toNat)).natAbs
            = (F64.signed s (m * 2 ^ (e - min e f).toNat)
              + -F64.signed t (n * 2 ^ (f - min e f).toNat)).natAbs := by omega
        have e2 : (!decide (F64.signed t (n * 2 ^ (f - min e f).toNat)
            + -F64.signed s (m * 2 ^ (e - min e f).toNat) < 0))
            = decide (F64.signed s (m * 2 ^ (e - min e f).toNat)
              + -F64.signed t (n * 2 ^ (f - min e f).toNat) < 0) := by
          rw [Bool.eq_iff_iff]
          simp only [Bool.not_eq_true', decide_eq_false_iff_not, decide_eq_true_eq]
          omega
        rw [e1, e2]
        exact F64.eq_self _ (F64.round_ne_nan _ _ _)

/-- The difference of a finite value with itself is positive zero. -/
theorem F64.sub_self_finite (x : F64) (hx : F64.isFinite x = true) :
    F64.sub x x = F64.zero := by
  cases x with
  | nan => cases hx
  | inf s => cases hx
  | fin s m e =>
    rcases F64.sub_self (.fin s m e) with h | h
    · have hz : F64.signed s (m * 2 ^ (e - min e e).toNat)
          + F64.signed (!s) (m * 2 ^ (e - min e e).toNat) = 0 := by
        cases s <;> simp [F64.signed]
      simp only [F64.sub, F64.neg, F64.add, hz, if_true] at h
      cases h
    · exact h

/-! ## `Cross` in binary64 without fused multiply-add -/

/-- In binary64, when every component is evaluated as `Cross` has it, two
rounded products and then the rounded difference (the evaluation on amd64; the Go
compiler may fuse a product into the subtraction on other platforms, and this
statement says nothing about that evaluation): for 3-dimensional `a`, `b`, at
every index the elements of `Cross(a, b)` and of `Negate(Cross(b, a))` are both
NaN or compare equal; `Cross(a, a)` is `[0, 0, 0]` when the three products
`a[1]*a[2]`, `a[2]*a[0]`, `a[0]*a[1]` are finite. -/
theorem Cross_unfused_anticomm (acos : F64 → F64) (a b : Vector F64)
    (ha : a.length = 3) (hb : b.length = 3) :
    (∃ u v w, Cross (ieee acos) a b = .ok u ∧ Cross (ieee acos) b a = .ok v ∧
      Negate (ieee acos) v = .ok w ∧ u.length = 3 ∧ w.length = 3 ∧
      ∀ (i : Nat) (x y : F64), u[i]? = some x → w[i]? = some y →
        (x = .nan ∧ y = .nan) ∨ F64.eq x y = true) ∧
    (∀ a0 a1 a2, a = [a0, a1, a2] →
      F64.isFinite (F64.mul a1 a2) = true → F64.isFinite (F64.mul a2 a0) = true →
      F64.isFinite (F64.mul a0 a1) = true →
      Cross (ieee acos) a a = .ok [F64.zero, F64.zero, F64.zero]) := by
  match a, ha, b, hb with
  | [a0, a1, a2], _, [b0, b1, b2], _ =>
    constructor
    · refine ⟨[F64.sub (F64.mul a1 b2) (F64.mul a2 b1), F64.sub (F64.mul a2 b0) (F64.mul a0 b2),
          F64.sub (F64.mul a0 b1) (F64.mul a1 b0)],
        [F64.sub (F64.mul b1 a2) (F64.mul b2 a1), F64.sub (F64.mul b2 a0) (F64.mul b0 a2),
          F64.sub (F64.mul b0 a1) (F64.mul b1 a0)], _, rfl, rfl, Negate_eq _ _, rfl, rfl, ?_⟩
      intro i x y hx hy
      rcases i with _ | _ | _ | i
      · simp only [List.getElem?_cons_zero, List.map_cons, Option.some.injEq] at hx hy
        subst hx hy
        rw [F64.mul_comm b1 a2, F64.mul_comm b2 a1]
        exact F64.sub_antisymm _ _
      · simp only [List.getElem?_cons_succ, List.getElem?_cons_zero, List.map_cons,
          Option.some.injEq] at hx hy
        subst hx hy
        rw [F64.mul_comm b2 a0, F64.mul_comm b0 a2]
        exact F64.sub_antisymm _ _
      · simp only [List.getElem?_cons_succ, List.getElem?_cons_zero, List.map_cons,
          Option.some.injEq] at hx hy
        subst hx hy
        rw [F64.mul_comm b0 a1, F64.mul_comm b1 a0]
        exact F64.sub_antisymm _ _
      · simp at hx
    · intro c0 c1 c2 hc h12 h20 h01
      have e0 := List.cons.inj hc
      have e1 := List.cons.inj e0.2
      have e2 := List.cons.inj e1.2
      obtain ⟨r0, r1, r2⟩ := And.intro e0.1 (And.intro e1.1 e2.1)
      subst r0 r1 r2
      show Except.ok [F64.sub (F64.mul a1 a2) (F64.mul a2 a1),
        F64.sub (F64.mul a2 a0) (F64.mul a0 a2),
        F64.sub (F64.mul a0 a1) (F64.mul a1 a0)] = _
      rw [F64.mul_comm a2 a1, F64.mul_comm a0 a2, F64.mul_comm a1 a0,
        F64.sub_self_finite _ h12, F64.sub_self_finite _ h20, F64.sub_self_finite _ h01]

/-- `Cross_unfused_anticomm` at concrete inputs: `Cross([1,2,3], [4,5,6])` is
`[-3, 6, -3]`, `Negate(Cross([4,5,6], [1,2,3]))` is the same, and
`Cross([1,2,3], [1,2,3])` is `[0, 0, 0]`. -/
theorem Cross_unfused_anticomm_example :
    (∃ u v w, Cross (ieee id) [F64.ofNat 1, F64.ofNat 2, F64.ofNat 3]
          [F64.ofNat 4, F64.ofNat 5, F64.ofNat 6] = .ok u ∧
        Cross (ieee id) [F64.ofNat 4, F64.ofNat 5, F64.ofNat 6]
          [F64.ofNat 1, F64.ofNat 2, F64.ofNat 3] = .ok v ∧
        Negate (ieee id) v = .ok w ∧ u.length = 3 ∧ w.length = 3 ∧
        ∀ (i : Nat) (x y : F64), u[i]? = some x → w[i]? = some y →
          (x = .nan ∧ y = .nan) ∨ F64.eq x y = true) ∧
    Cross (ieee id) [F64.ofNat 1, F64.ofNat 2, F64.ofNat 3]
        [F64.ofNat 1, F64.ofNat 2, F64.ofNat 3] = .ok [F64.zero, F64.zero, F64.zero] :=
  ⟨(Cross_unfused_anticomm id [F64.ofNat 1, F64.ofNat 2, F64.ofNat 3]
      [F64.ofNat 4, F64.ofNat 5, F64.ofNat 6] rfl rfl).1,
   (Cross_unfused_anticomm id [F64.ofNat 1, F64.ofNat 2, F64.ofNat 3]
      [F64.ofNat 1, F64.ofNat 2, F64.ofNat 3] rfl rfl).2 _ _ _ rfl
      (by decide!) (by decide!) (by decide!)⟩

/-! ## C20: `Cross` is anticommutative -/

/-- C20, over exact arithmetic (any ordered field, the real numbers among
them), where neither rounding nor the fusing of a product into the subtraction
changes a value: for 3-dimensional `a`, `b` the vector `Cross(a, b)` is
`Negate(Cross(b, a))`, and `Cross(a, a)` is the zero vector `[0, 0, 0]`. -/
theorem Cross_anticomm {K : Type} [LinearOrderedField K] (sqrt acos : K → K) (a b : Vector K)
    (ha : a.length = 3) (hb : b.length = 3) :
    (∃ u v w, Cross (exactArith K sqrt acos) a b = .ok u ∧
      Cross (exactArith K sqrt acos) b a = .ok v ∧
      Negate (exactArith K sqrt acos) v = .ok w ∧ u.length = 3 ∧ u = w) ∧
    Cross (exactArith K sqrt acos) a a = .ok [0, 0, 0] := by
  match a, ha, b, hb with
  | [a0, a1, a2], _, [b0, b1, b2], _ =>
    constructor
    · refine ⟨[a1 * b2 - a2 * b1, a2 * b0 - a0 * b2, a0 * b1 - a1 * b0],
        [b1 * a2 - b2 * a1, b2 * a0 - b0 * a2, b0 * a1 - b1 * a0],
        [-(b1 * a2 - b2 * a1), -(b2 * a0 - b0 * a2), -(b0 * a1 - b1 * a0)],
        rfl, rfl, ?_, rfl, ?_⟩
      · rw [Negate_eq]
        rfl
      · congr 1
        · ring
        · congr 1
          · ring
          · congr 1
            ring
    · show Except.ok [a1 * a2 - a2 * a1, a2 * a0 - a0 * a2, a0 * a1 - a1 * a0] = _
      congr 2
      · ring
      · congr 1
        · ring
        · congr 1
          ring

/-- C20 at concrete real inputs: `Cross([1,2,3], [4,5,6])` is
`Negate(Cross([4,5,6], [1,2,3]))` and `Cross([1,2,3], [1,2,3])` is `[0, 0, 0]`. -/
theorem Cross_anticomm_witness :
    (∃ u v w, Cross (exactArith ℝ Real.sqrt Real.arccos) [1, 2, 3] [4, 5, 6] = .ok u ∧
      Cross (exactArith ℝ Real.sqrt Real.arccos) [4, 5, 6] [1, 2, 3] = .ok v ∧
      Negate (exactArith ℝ Real.sqrt Real.arccos) v = .ok w ∧ u.length = 3 ∧ u = w) ∧
    Cross (exactArith ℝ Real.sqrt Real.arccos) [1, 2, 3] [1, 2, 3] = .ok [0, 0, 0] :=
  Cross_anticomm Real.sqrt Real.arccos [1, 2, 3] [4, 5, 6] rfl rfl

/-- C20 as stated fails in binary64: for `a = [2^700, 2^700, 2^700]` every
product overflows to `+Inf`, and `Cross(a, a)` is `[NaN, NaN, NaN]`, not the
zero vector. -/
theorem Cross_anticomm_counterexample :
    F64.valid (F64.fin false (2 ^ 52) 648) = true ∧
    ¬ ∀ (a : Vector F64), a.length = 3 →
      ∃ w, Cross (ieee id) a a = .ok w ∧ ∀ x ∈ w, F64.eq x F64.zero = true := by
  refine ⟨by decide, ?_⟩
  intro h
  obtain ⟨w, hw, hz⟩ := h [F64.fin false (2 ^ 52) 648, F64.fin false (2 ^ 52) 648,
    F64.fin false (2 ^ 52) 648] rfl
  have hw1 : Cross (ieee id) [F64.fin false (2 ^ 52) 648, F64.fin false (2 ^ 52) 648,
      F64.fin false (2 ^ 52) 648] [F64.fin false (2 ^ 52) 648, F64.fin false (2 ^ 52) 648,
      F64.fin false (2 ^ 52) 648] = .ok [F64.nan, F64.nan, F64.nan] := by decide!
  rw [hw1] at hw
  have ew := Except.ok.inj hw
  subst ew
  have := hz F64.nan (List.mem_cons_self _ _)
  revert this
  decide

theorem F64.abs_round (s : Bool) (m : Nat) (e : Int) :
    F64.abs (F64.round s m e) = F64.round false m e := by
  unfold F64.round
  simp only []
  split_ifs <;> rfl

/-- The absolute difference does not depend on the order of the operands. -/
theorem F64.abs_sub_comm (x y : F64) : F64.abs (F64.sub x y) = F64.abs (F64.sub y x) := by
  cases x with
  | nan => cases y <;> rfl
  | inf s =>
    cases y with
    | nan => rfl
    | inf t => cases s <;> cases t <;> rfl
    | fin t n f => cases s <;> rfl
  | fin s m e =>
    cases y with
    | nan => rfl
    | inf t => cases t <;> rfl
    | fin t n f =>
      have hxy : F64.sub (.fin s m e) (.fin t n f)
          = if F64.signed s (m * 2 ^ (e - min e f).toNat)
                + -F64.signed t (n * 2 ^ (f - min e f).toNat) = 0 then F64.zeroS (s && !t)
            else F64.round (decide (F64.signed s (m * 2 ^ (e - min e f).toNat)
                + -F64.signed t (n * 2 ^ (f - min e f).toNat) < 0))
              (F64.signed s (m * 2 ^ (e - min e f).toNat)
                + -F64.signed t (n * 2 ^ (f - min e f).toNat)).natAbs (min e f) := by
        simp only [F64.sub, F64.neg, F64.add, F64.signed_not]
      have hyx : F64.sub (.fin t n f) (.fin s m e)
          = if F64.signed t (n * 2 ^ (f - min e f).toNat)
                + -F64.signed s (m * 2 ^ (e - min e f).toNat) = 0 then F64.zeroS (t && !s)
            else F64.round (decide (F64.signed t (n * 2 ^ (f - min e f).toNat)
                + -F64.signed s (m * 2 ^ (e - min e f).toNat) < 0))
              (F64.signed t (n * 2 ^ (f - min e f).toNat)
                + -F64.signed s (m * 2 ^ (e - min e f).toNat)).natAbs (min e f) := by
        simp only [F64.sub, F64.neg, F64.add, F64.signed_not, min_comm f e]
      rw [hxy, hyx]
      by_cases hz : F64.signed s (m * 2 ^ (e - min e f).toNat)
          + -F64.signed t (n * 2 ^ (f - min e f).toNat) = 0
      · have hz2 : F64.signed t (n * 2 ^ (f - min e f).toNat)
            + -F64.signed s (m * 2 ^ (e - min e f).toNat) = 0 := by omega
        rw [if_pos hz, if_pos hz2]
        rfl
      · have hz2 : ¬ F64.signed t (n * 2 ^ (f - min e f).toNat)
            + -F64.signed s (m * 2 ^ (e - min e f).toNat) = 0 := by omega
        rw [if_neg hz, if_neg hz2, F64.abs_round, F64.abs_round]
        congr 1
        omega

/-- `Equal` does not depend on the order of the two vectors when the absolute
difference does not. -/
theorem Equal_comm_of (A : Arith F) (habs : ∀ x y, A.abs (A.sub x y) = A.abs (A.sub y x))
    (a b : Vector F) (eps : F) : Equal A a b eps = Equal A b a eps := by
  rw [Equal_eq, Equal_eq]
  by_cases h : a.length = b.length
  · have hfun : (fun i => !A.gt (A.abs (A.sub (a.getD i A.zero) (b.getD i A.zero))) eps)
        = fun i => !A.gt (A.abs (A.sub (b.getD i A.zero) (a.getD i A.zero))) eps := by
      funext i
      rw [habs]
    rw [hfun, h]
  · have h2 : ¬ b.length = a.length := fun e => h e.symm
    simp [h, h2]

/-! ## C19: `Equal` is symmetric, with a triangle rule for the tolerances -/

/-- C19, as the code has it: in binary64 `Equal(u, v, tol)` and `Equal(v, u, tol)`
are the same; over exact arithmetic `Equal` is symmetric as well, and if
`Equal(a, b, e1)` and `Equal(b, c, e2)` are both `true` then `Equal(a, c, e1 + e2)`
is `true`. -/
theorem Equal_symm_triangle {K : Type} [LinearOrderedField K] (sqrt acos : K → K)
    (acosF : F64 → F64) (u v : Vector F64) (tol : F64) (a b c : Vector K) (e1 e2 : K) :
    Equal (ieee acosF) u v tol = Equal (ieee acosF) v u tol ∧
    Equal (exactArith K sqrt acos) a b e1 = Equal (exactArith K sqrt acos) b a e1 ∧
    (Equal (exactArith K sqrt acos) a b e1 = .ok true →
      Equal (exactArith K sqrt acos) b c e2 = .ok true →
      Equal (exactArith K sqrt acos) a c (e1 + e2) = .ok true) := by
  refine ⟨Equal_comm_of (ieee acosF) F64.abs_sub_comm u v tol,
    Equal_comm_of (exactArith K sqrt acos) (fun x y => abs_sub_comm x y) a b e1, ?_⟩
  intro hab hbc
  rw [Equal_true_iff] at hab hbc ⊢
  obtain ⟨hl1, h1⟩ := hab
  obtain ⟨hl2, h2⟩ := hbc
  refine ⟨hl1.trans hl2, ?_⟩
  intro i x z hx hz
  have hi : i < b.length := by
    by_contra hn
    have : a[i]? = none := List.getElem?_eq_none (by omega)
    rw [this] at hx
    cases hx
  have hy : b[i]? = some b[i] := List.getElem?_eq_getElem hi
  have k1 := h1 i x b[i] hx hy
  have k2 := h2 i b[i] z hy hz
  simp only [exactArith, decide_eq_false_iff_not, not_lt] at k1 k2 ⊢
  calc |x - z| = |(x - b[i]) + (b[i] - z)| := by ring_nf
    _ ≤ |x - b[i]| + |b[i] - z| := abs_add _ _
    _ ≤ e1 + e2 := add_le_add k1 k2

/-- C19 at concrete real inputs: `Equal([0], [1], 1)` and `Equal([1], [3], 2)`
are `true`, and so is `Equal([0], [3], 1 + 2)`. -/
theorem Equal_symm_triangle_witness :
    Equal (exactArith ℝ Real.sqrt Real.arccos) [0] [1] 1 = .ok true ∧
    Equal (exactArith ℝ Real.sqrt Real.arccos) [1] [3] 2 = .ok true ∧
    Equal (exactArith ℝ Real.sqrt Real.arccos) [0] [3] (1 + 2) = .ok true := by
  have h1 : Equal (exactArith ℝ Real.sqrt Real.arccos) [0] [1] 1 = .ok true := by
    rw [Equal_eq]
    simp [exactArith]
  have h2 : Equal (exactArith ℝ Real.sqrt Real.arccos) [1] [3] 2 = .ok true := by
    rw [Equal_eq]
    simp [exactArith]
    norm_num
  exact ⟨h1, h2, (Equal_symm_triangle Real.sqrt Real.arccos id [] [] F64.zero
    [0] [1] [3] 1 2).2.2 h1 h2⟩

/-- C19 as stated fails in binary64: `Equal([0], [0.2], 0.2)` and
`Equal([0.2], [0.9], 0.7)` are `true`, but `0.2 + 0.7` rounds to
`0.8999999999999999` and `Equal([0], [0.9], 0.2 + 0.7)` is `false`. -/
theorem Equal_triangle_counterexample :
    ¬ ∀ (a b c : Vector F64) (e1 e2 : F64),
      Equal (ieee id) a b e1 = .ok true → Equal (ieee id) b c e2 = .ok true →
        Equal (ieee id) a c (F64.add e1 e2) = .ok true := by
  intro h
  have := h [F64.ofNat 0] [F64.dec 2 10] [F64.dec 9 10] (F64.dec 2 10) (F64.dec 7 10)
    (by decide!) (by decide!)
  revert this
  decide!

/-- One step of the Cauchy-Schwarz inequality for running sums. -/
theorem cs_step {K : Type} [LinearOrderedField K] (S A B x y : K)
    (hA : 0 ≤ A) (hB : 0 ≤ B) (h : S * S ≤ A * B) :
    (S + x * y) * (S + x * y) ≤ (A + x * x) * (B + y * y) := by
  have key : 2 * S * x * y ≤ A * (y * y) + B * (x * x) := by
    rcases eq_or_lt_of_le hA with hA0 | hApos
    · have hS : S = 0 := by
        have : S * S ≤ 0 := by rw [← hA0] at h; simpa using h
        have h2 : 0 ≤ S * S := mul_self_nonneg S
        exact mul_self_eq_zero.mp (le_antisymm this h2)
      rw [hS, ← hA0]
      have := mul_nonneg hB (mul_self_nonneg x)
      simpa using this
    · have h1 : 0 ≤ A * (A * (y * y) + B * (x * x) - 2 * S * x * y) := by
        have e : A * (A * (y * y) + B * (x * x) - 2 * S * x * y)
            = (A * y - S * x) * (A * y - S * x) + (A * B - S * S) * (x * x) := by ring
        rw [e]
        exact add_nonneg (mul_self_nonneg _)
          (mul_nonneg (sub_nonneg.mpr h) (mul_self_nonneg x))
      have h2 := nonneg_of_mul_nonneg_right h1 hApos
      linarith
  nlinarith [key, h]

/-- The Cauchy-Schwarz inequality for the three sums that `Angle` computes. -/
theorem cs_fold {K : Type} [LinearOrderedField K] (a b : List K) :
    ∀ (S A B : K), a.length = b.length → 0 ≤ A → 0 ≤ B → S * S ≤ A * B →
      0 ≤ (List.zipWith (fun x y => x * y) a a).foldl (fun x y => x + y) A ∧
      0 ≤ (List.zipWith (fun x y => x * y) b b).foldl (fun x y => x + y) B ∧
      (List.zipWith (fun x y => x * y) a b).foldl (fun x y => x + y) S
          * (List.zipWith (fun x y => x * y) a b).foldl (fun x y => x + y) S
        ≤ (List.zipWith (fun x y => x * y) a a).foldl (fun x y => x + y) A
          * (List.zipWith (fun x y => x * y) b b).foldl (fun x y => x + y) B := by
  induction a generalizing b with
  | nil =>
    intro S A B h hA hB hS
    cases b with
    | nil => exact ⟨hA, hB, hS⟩
    | cons _ _ => cases h
  | cons x xs ih =>
    intro S A B h hA hB hS
    cases b with
    | nil => cases h
    | cons y ys =>
      simp only [List.zipWith_cons_cons, List.foldl_cons]
      exact ih ys _ _ _ (by simpa using h) (add_nonneg hA (mul_self_nonneg x))
        (add_nonneg hB (mul_self_nonneg y)) (cs_step S A B x y hA hB hS)

/-! ## C14: the range of `Angle` -/

/-- C14, over exact real arithmetic: for equal-dimension `a`, `b` with
`Lenght(a) != 0` and `Lenght(b) != 0`, `Angle(a, b)` succeeds, the argument
`Dot(a, b) / (Lenght(a) * Lenght(b))` passed to `acos` lies in `[-1, 1]`
(Cauchy-Schwarz), and the angle lies in `[0, π]`. -/
theorem Angle_range (a b : Vector ℝ) (hlen : a.length = b.length)
    (ha : Lenght (exactArith ℝ Real.sqrt Real.arccos) a ≠ .ok 0)
    (hb : Lenght (exactArith ℝ Real.sqrt Real.arccos) b ≠ .ok 0) :
    ∃ d m n, Dot (exactArith ℝ Real.sqrt Real.arccos) a b = .ok d ∧
      Lenght (exactArith ℝ Real.sqrt Real.arccos) a = .ok m ∧
      Lenght (exactArith ℝ Real.sqrt Real.arccos) b = .ok n ∧
      Angle (exactArith ℝ Real.sqrt Real.arccos) a b = .ok (Real.arccos (d / (m * n))) ∧
      -1 ≤ d / (m * n) ∧ d / (m * n) ≤ 1 ∧
      0 ≤ Real.arccos (d / (m * n)) ∧ Real.arccos (d / (m * n)) ≤ Real.pi := by
  obtain ⟨hA, hB, hcs⟩ := cs_fold a b 0 0 0 hlen (le_refl 0) (le_refl 0) (by simp)
  obtain ⟨D, hD⟩ : ∃ D, D = (List.zipWith (fun x y : ℝ => x * y) a b).foldl (fun x y => x + y) 0 :=
    ⟨_, rfl⟩
  obtain ⟨SA, hSA⟩ :
      ∃ SA, SA = (List.zipWith (fun x y : ℝ => x * y) a a).foldl (fun x y => x + y) 0 := ⟨_, rfl⟩
  obtain ⟨SB, hSB⟩ :
      ∃ SB, SB = (List.zipWith (fun x y : ℝ => x * y) b b).foldl (fun x y => x + y) 0 := ⟨_, rfl⟩
  rw [← hD, ← hSA, ← hSB] at hcs
  rw [← hSA] at hA
  rw [← hSB] at hB
  have hd : Dot (exactArith ℝ Real.sqrt Real.arccos) a b = .ok D := by
    rw [hD]
    exact Dot_eq _ a b hlen
  have hm : Lenght (exactArith ℝ Real.sqrt Real.arccos) a = .ok (Real.sqrt SA) := by
    rw [hSA]
    exact Lenght_eq _ a
  have hn : Lenght (exactArith ℝ Real.sqrt Real.arccos) b = .ok (Real.sqrt SB) := by
    rw [hSB]
    exact Lenght_eq _ b
  have hm0 : Real.sqrt SA ≠ 0 := fun h => ha (by rw [hm, h])
  have hn0 : Real.sqrt SB ≠ 0 := fun h => hb (by rw [hn, h])
  have hmn : 0 < Real.sqrt SA * Real.sqrt SB :=
    mul_pos (lt_of_le_of_ne (Real.sqrt_nonneg _) (Ne.symm hm0))
      (lt_of_le_of_ne (Real.sqrt_nonneg _) (Ne.symm hn0))
  have hsq : D ^ 2 ≤ (Real.sqrt SA * Real.sqrt SB) ^ 2 := by
    rw [pow_two, pow_two, mul_mul_mul_comm, Real.mul_self_sqrt hA, Real.mul_self_sqrt hB]
    exact hcs
  have habs : |D| ≤ Real.sqrt SA * Real.sqrt SB := abs_le_of_sq_le_sq hsq hmn.le
  have hang : Angle (exactArith ℝ Real.sqrt Real.arccos) a b
      = .ok (Real.arccos (D / (Real.sqrt SA * Real.sqrt SB))) := by
    rw [Angle_eq, if_neg, if_neg (not_not.mpr hlen), hD, hSA, hSB]
    · rfl
    · rintro (h | h)
      · exact hm0 (by rw [hSA]; exact of_decide_eq_true h)
      · exact hn0 (by rw [hSB]; exact of_decide_eq_true h)
  refine ⟨D, Real.sqrt SA, Real.sqrt SB, hd, hm, hn, hang, ?_, ?_,
    Real.arccos_nonneg _, Real.arccos_le_pi _⟩
  · rw [le_div_iff₀ hmn]
    have := (abs_le.mp habs).1
    linarith
  · rw [div_le_one hmn]
    exact (abs_le.mp habs).2

/-- C14 at concrete real inputs: for `a = [1, 0]`, `b = [0, 1]` the hypotheses
hold and the angle lies in `[0, π]`. -/
theorem Angle_range_witness :
    ∃ d m n, Dot (exactArith ℝ Real.sqrt Real.arccos) [1, 0] [0, 1] = .ok d ∧
      Lenght (exactArith ℝ Real.sqrt Real.arccos) [1, 0] = .ok m ∧
      Lenght (exactArith ℝ Real.sqrt Real.arccos) [0, 1] = .ok n ∧
      Angle (exactArith ℝ Real.sqrt Real.arccos) [1, 0] [0, 1]
        = .ok (Real.arccos (d / (m * n))) ∧
      -1 ≤ d / (m * n) ∧ d / (m * n) ≤ 1 ∧
      0 ≤ Real.arccos (d / (m * n)) ∧ Real.arccos (d / (m * n)) ≤ Real.pi :=
  Angle_range [1, 0] [0, 1] rfl
    (by rw [Lenght_eq]; simp [exactArith])
    (by rw [Lenght_eq]; simp [exactArith])

/-- C14 as stated fails in binary64: for `a = b = [1, 1, 1]` the lengths are
`sqrt(3)`, their product rounds to `2.9999999999999996`, and the argument
`3 / 2.9999999999999996` passed to `acos` is `1.0000000000000002`, above `1`. -/
theorem Angle_range_counterexample :
    ¬ ∀ (a b : Vector F64), a.length = b.length →
      ∀ (d m n : F64), Dot (ieee id) a b = .ok d → Lenght (ieee id) a = .ok m →
        Lenght (ieee id) b = .ok n → F64.eq m F64.zero = false → F64.eq n F64.zero = false →
        F64.le (F64.neg (F64.ofNat 1)) (F64.div d (F64.mul m n)) = true ∧
        F64.le (F64.div d (F64.mul m n)) (F64.ofNat 1) = true := by
  intro h
  have h1 := h [F64.ofNat 1, F64.ofNat 1, F64.ofNat 1] [F64.ofNat 1, F64.ofNat 1, F64.ofNat 1]
    rfl (F64.ofNat 3) (F64.sqrt (F64.ofNat 3)) (F64.sqrt (F64.ofNat 3))
    (by decide!) (by decide!) (by decide!) (by decide!) (by decide!)
  have h2 : F64.div (F64.ofNat 3) (F64.mul (F64.sqrt (F64.ofNat 3)) (F64.sqrt (F64.ofNat 3)))
      = F64.fin false (2 ^ 52 + 1) (-52) := by decide!
  rw [h2] at h1
  revert h1
  decide!

/-- A Newton step from a guess above the root stays above the root. -/
theorem F64.newton_ge (n x s : Nat) (hs : s * s ≤ n) (hx : s ≤ x) (hpos : 0 < s) :
    s ≤ (x + n / x) / 2 := by
  have hx0 : 0 < x := Nat.lt_of_lt_of_le hpos hx
  rw [Nat.le_div_iff_mul_le (by decide : 0 < 2)]
  by_cases h2 : 2 * s ≤ x
  · have : 0 ≤ n / x := Nat.zero_le _
    omega
  · obtain ⟨k, hk⟩ : ∃ k, x = s + k := ⟨x - s, by omega⟩
    have hks : k < s := by omega
    obtain ⟨u, hu⟩ : ∃ u, s = u + k := ⟨s - k, by omega⟩
    have hux : u * x ≤ n := by
      calc u * x = u * (u + 2 * k) := by rw [hk, hu]; ring
        _ ≤ u * (u + 2 * k) + k * k := Nat.le_add_right _ _
        _ = s * s := by rw [hu]; ring
        _ ≤ n := hs
    have hdiv : u ≤ n / x := (Nat.le_div_iff_mul_le hx0).mpr hux
    omega

theorem F64.isqrtAux_ge (n s : Nat) (hs : s * s ≤ n) (hpos : 0 < s) :
    ∀ (fuel x : Nat), s ≤ x → s ≤ F64.isqrtAux fuel n x := by
  intro fuel
  induction fuel with
  | zero => intro x hx; exact hx
  | succ fuel ih =>
    intro x hx
    simp only [F64.isqrtAux]
    split
    · exact ih _ (F64.newton_ge n x s hs hx hpos)
    · exact hx

/-- The integer square root is not below any number whose square fits. -/
theorem F64.isqrt_ge (n s : Nat) (hs : s * s ≤ n) : s ≤ F64.isqrt n := by
  unfold F64.isqrt
  split
  · rename_i h1
    rcases Nat.eq_zero_or_pos s with h0 | hpos
    · omega
    · have : s ≤ s * s := Nat.le_mul_self s
      omega
  · rename_i h1
    rcases Nat.eq_zero_or_pos s with h0 | hpos
    · omega
    · apply F64.isqrtAux_ge n s hs hpos
      have hn : 0 < n := by omega
      obtain ⟨_, hhi⟩ := F64.bitLen_spec n hn
      have hlt : s * s < 2 ^ ((F64.bitLen n + 1) / 2) * 2 ^ ((F64.bitLen n + 1) / 2) := by
        rw [← pow_add]
        calc s * s ≤ n := hs
          _ < 2 ^ F64.bitLen n := hhi
          _ ≤ 2 ^ ((F64.bitLen n + 1) / 2 + (F64.bitLen n + 1) / 2) :=
            Nat.pow_le_pow_right (by decide) (by omega)
      exact Nat.le_of_lt (Nat.mul_self_lt_mul_self_iff.mp hlt)

/-- A number that is at least `2^j` has more than `j` binary digits. -/
theorem F64.lt_bitLen (p j : Nat) (h : 2 ^ j ≤ p) : j < F64.bitLen p := by
  have hp : 0 < p := Nat.lt_of_lt_of_le (by positivity) h
  obtain ⟨_, hhi⟩ := F64.bitLen_spec p hp
  exact (Nat.pow_lt_pow_iff_right (by decide : 1 < 2)).mp (Nat.lt_of_le_of_lt h hhi)

theorem F64.bitLen_pos (p : Nat) (hp : p ≠ 0) : 0 < F64.bitLen p :=
  Nat.lt_of_le_of_lt (Nat.zero_le _) (F64.lt_bitLen p 0 (by simpa using Nat.pos_of_ne_zero hp))

/-- The digit count of a product is at least the sum of the digit counts less one. -/
theorem F64.bitLen_mul (p q : Nat) (hp : p ≠ 0) (hq : q ≠ 0) :
    F64.bitLen p + F64.bitLen q ≤ F64.bitLen (p * q) + 1 := by
  obtain ⟨hp1, _⟩ := F64.bitLen_spec p (Nat.pos_of_ne_zero hp)
  obtain ⟨hq1, _⟩ := F64.bitLen_spec q (Nat.pos_of_ne_zero hq)
  have := F64.lt_bitLen (p * q) ((F64.bitLen p - 1) + (F64.bitLen q - 1))
    (by rw [pow_add]; exact Nat.mul_le_mul hp1 hq1)
  have := F64.bitLen_pos p hp
  have := F64.bitLen_pos q hq
  omega

/-- Rounding keeps the magnitude: a non-zero number whose leading digit has
weight above `2^t`, for `t` not below `-1074`, rounds to a value above `2^t`. -/
theorem F64.round_above (t : Int) (ht : -1074 ≤ t) (s : Bool) (m : Nat) (e : Int)
    (hm : m ≠ 0) (h : t < (F64.bitLen m : Int) + e) :
    F64.above t (F64.round s m e) = true := by
  have hpos : 0 < m := Nat.pos_of_ne_zero hm
  obtain ⟨hlo, hhi⟩ := F64.bitLen_spec m hpos
  have hL := F64.bitLen_pos m hm
  -- a finite result with at least `j + 1` digits
  have key : ∀ (q j : Nat) (e2 : Int), 2 ^ j ≤ q → t < (j : Int) + 1 + e2 →
      F64.above t (.fin s q e2) = true := by
    intro q j e2 hq hj
    have h1 := F64.lt_bitLen q j hq
    have h2 : q ≠ 0 := by
      have : 0 < 2 ^ j := by positivity
      omega
    simp only [F64.above, h2, ne_eq, not_false_eq_true, decide_True, Bool.true_and,
      decide_eq_true_eq]
    omega
  unfold F64.round
  simp only [if_neg hm]
  by_cases h1 : max (e + (F64.bitLen m : Int) - 53) (-1074) ≤ e
  · rw [if_pos h1]
    split_ifs
    · rfl
    · apply key _ (F64.bitLen m - 1 + (e - max (e + (F64.bitLen m : Int) - 53) (-1074)).toNat)
      · rw [pow_add]
        exact Nat.mul_le_mul_right _ hlo
      · omega
  · rw [if_neg h1]
    have hq : 2 ^ (F64.bitLen m - 1 - (max (e + (F64.bitLen m : Int) - 53) (-1074) - e).toNat)
        ≤ m / 2 ^ (max (e + (F64.bitLen m : Int) - 53) (-1074) - e).toNat := by
      rw [Nat.le_div_iff_mul_le (by positivity), ← pow_add]
      have : F64.bitLen m - 1 - (max (e + (F64.bitLen m : Int) - 53) (-1074) - e).toNat
          + (max (e + (F64.bitLen m : Int) - 53) (-1074) - e).toNat = F64.bitLen m - 1 := by
        omega
      rw [this]
      exact hlo
    split_ifs
    all_goals first
      | rfl
      | (apply key _ 52 _ (le_refl _); omega)
      | (apply key _ (F64.bitLen m - 1
            - (max (e + (F64.bitLen m : Int) - 53) (-1074) - e).toNat) _ (by omega); omega)

/-- The root of a good non-zero value is at least `2^-537`. -/
theorem F64.sqrt_above (d : F64) (hn : F64.nonneg d = true) (hb : F64.bounded d = true)
    (hz : F64.eq d F64.zero = false) : F64.above (-537) (F64.sqrt d) = true := by
  cases d with
  | nan => cases hn
  | inf s =>
    simp only [F64.nonneg, Bool.not_eq_true'] at hn
    subst hn
    rfl
  | fin s m e =>
    have hm : m ≠ 0 := by
      intro h0
      subst h0
      rw [(F64.eq_zero_iff _).mpr ⟨s, e, rfl⟩] at hz
      cases hz
    simp only [F64.nonneg, hm, decide_False, Bool.or_false, Bool.not_eq_true'] at hn
    subst hn
    simp only [F64.bounded, decide_eq_true_eq] at hb
    simp only [F64.sqrt, if_neg hm, Bool.false_eq_true, if_false]
    have hr : 2 ^ 64 ≤ F64.isqrt (m * 2 ^ (128 + (e % 2).toNat)) := by
      apply F64.isqrt_ge
      calc 2 ^ 64 * 2 ^ 64 = 1 * 2 ^ 128 := by norm_num
        _ ≤ m * 2 ^ 128 := Nat.mul_le_mul_right _ (Nat.pos_of_ne_zero hm)
        _ ≤ m * 2 ^ (128 + (e % 2).toNat) :=
          Nat.mul_le_mul_left _ (Nat.pow_le_pow_right (by decide) (by omega))
    have hM : 2 ^ 65 ≤ 2 * F64.isqrt (m * 2 ^ (128 + (e % 2).toNat))
        + (if F64.isqrt (m * 2 ^ (128 + (e % 2).toNat))
              * F64.isqrt (m * 2 ^ (128 + (e % 2).toNat))
            = m * 2 ^ (128 + (e % 2).toNat) then 0 else 1) := by
      have : (2 : Nat) ^ 65 = 2 * 2 ^ 64 := by norm_num
      omega
    have hL := F64.lt_bitLen _ 65 hM
    apply F64.round_above (-537) (by decide)
    · have : 0 < 2 ^ 65 := by positivity
      omega
    · omega

/-- The product of two values of magnitude at least `2^-537` is not NaN and not
zero. -/
theorem F64.mul_above (x y : F64) (hx : F64.above (-537) x = true)
    (hy : F64.above (-537) y = true) : F64.above (-1074) (F64.mul x y) = true := by
  cases x with
  | nan => cases hx
  | inf s =>
    cases y with
    | nan => cases hy
    | inf t => rfl
    | fin t n f =>
      simp only [F64.above, Bool.and_eq_true, decide_eq_true_eq] at hy
      simp [F64.mul, hy.1, F64.above]
  | fin s m e =>
    cases y with
    | nan => cases hy
    | inf t =>
      simp only [F64.above, Bool.and_eq_true, decide_eq_true_eq] at hx
      simp [F64.mul, hx.1, F64.above]
    | fin t n f =>
      simp only [F64.above, Bool.and_eq_true, decide_eq_true_eq] at hx hy
      simp only [F64.mul]
      have := F64.bitLen_mul m n hx.1 hy.1
      apply F64.round_above (-1074) (le_refl _)
      · exact Nat.mul_ne_zero hx.1 hy.1
      · omega

/-- Zero divided by a value that is neither NaN nor zero is zero. -/
theorem F64.zero_div (d y : F64) (hd : F64.eq d F64.zero = true) (t : Int)
    (hy : F64.above t y = true) : F64.eq (F64.div d y) F64.zero = true := by
  obtain ⟨s, e, hd⟩ := (F64.eq_zero_iff d).mp hd
  subst hd
  apply (F64.eq_zero_iff _).mpr
  cases y with
  | nan => cases hy
  | inf u => exact ⟨xor s u, -1074, rfl⟩
  | fin u n f =>
    simp only [F64.above, Bool.and_eq_true, decide_eq_true_eq] at hy
    refine ⟨xor s u, -1074, ?_⟩
    simp [F64.div, hy.1, F64.round, F64.zeroS]

theorem F64.mul_ne_nan (x y : F64) (h : F64.mul x y ≠ .nan) : x ≠ .nan ∧ y ≠ .nan := by
  constructor
  · rintro rfl
    cases y <;> exact h rfl
  · rintro rfl
    cases x <;> exact h rfl

theorem F64.foldl_ne_nan (l : List F64) :
    ∀ acc, l.foldl F64.add acc ≠ .nan → ∀ p ∈ l, p ≠ .nan := by
  induction l with
  | nil => intro _ _ p hp; cases hp
  | cons q rest ih =>
    intro acc h p hp
    rw [List.foldl_cons] at h
    rcases List.mem_cons.mp hp with hq | hq
    · subst hq
      rintro rfl
      rw [F64.add_nan_right] at h
      have hnan : ∀ (l : List F64), l.foldl F64.add .nan = .nan := by
        intro l
        induction l with
        | nil => rfl
        | cons r rs ihr => rw [List.foldl_cons, F64.add_nan_left]; exact ihr
      exact h (hnan rest)
    · exact ih _ h p hq

theorem mem_zipWith_left (f : F → F → F) (a b : Vector F) (hlen : a.length = b.length)
    (x : F) (hx : x ∈ a) : ∃ y, y ∈ b ∧ f x y ∈ List.zipWith f a b := by
  induction a generalizing b with
  | nil => cases hx
  | cons u us ih =>
    cases b with
    | nil => cases hlen
    | cons v vs =>
      rcases List.mem_cons.mp hx with h | h
      · subst h
        exact ⟨v, List.mem_cons_self _ _, by simp⟩
      · obtain ⟨y, hy, hm⟩ := ih vs (by simpa using hlen) h
        exact ⟨y, List.mem_cons_of_mem _ hy, by
          rw [List.zipWith_cons_cons]
          exact List.mem_cons_of_mem _ hm⟩

theorem mem_zipWith_right (f : F → F → F) (a b : Vector F) (hlen : a.length = b.length)
    (y : F) (hy : y ∈ b) : ∃ x, x ∈ a ∧ f x y ∈ List.zipWith f a b := by
  induction a generalizing b with
  | nil =>
    cases b with
    | nil => cases hy
    | cons _ _ => cases hlen
  | cons u us ih =>
    cases b with
    | nil => cases hy
    | cons v vs =>
      rcases List.mem_cons.mp hy with h | h
      · subst h
        exact ⟨u, List.mem_cons_self _ _, by simp⟩
      · obtain ⟨x, hx, hm⟩ := ih vs (by simpa using hlen) h
        exact ⟨x, List.mem_cons_of_mem _ hx, by
          rw [List.zipWith_cons_cons]
          exact List.mem_cons_of_mem _ hm⟩

theorem F64.dot_self_bounded (a : Vector F64) :
    F64.bounded ((List.zipWith F64.mul a a).foldl F64.add F64.zero) = true := by
  have : ∀ (l : List F64) (acc : F64), F64.bounded acc = true →
      F64.bounded (l.foldl F64.add acc) = true := by
    intro l
    induction l with
    | nil => intro acc h; exact h
    | cons q rest ih =>
      intro acc _
      rw [List.foldl_cons]
      exact ih _ (F64.add_bounded acc q)
  exact this _ _ rfl

/-- The length of a vector without NaN elements, when it is not zero, is at
least `2^-537`. -/
theorem F64.length_above (a : Vector F64) (ha : ∀ x ∈ a, x ≠ F64.nan)
    (hz : F64.eq (F64.sqrt ((List.zipWith F64.mul a a).foldl F64.add F64.zero)) F64.zero
      = false) :
    F64.above (-537) (F64.sqrt ((List.zipWith F64.mul a a).foldl F64.add F64.zero)) = true := by
  apply F64.sqrt_above _ (F64.dot_self_nonneg a ha) (F64.dot_self_bounded a)
  cases h : F64.eq ((List.zipWith F64.mul a a).foldl F64.add F64.zero) F64.zero with
  | false => rfl
  | true =>
    rw [F64.sqrt_zero_of_zero _ h] at hz
    cases hz

/-! ## C15: the angle of orthogonal vectors -/

/-- C15: for equal-dimension `a`, `b` with `Lenght(a) != 0`, `Lenght(b) != 0` and
`Dot(a, b) == 0`, `Angle(a, b)` succeeds and returns `acos` of a zero; with
`math.Acos(±0) = π/2` that is `π/2`. -/
theorem Angle_orthogonal (acos : F64 → F64) (a b : Vector F64) (hlen : a.length = b.length)
    (m n d : F64) (hm : Lenght (ieee acos) a = .ok m) (hn : Lenght (ieee acos) b = .ok n)
    (hm0 : F64.eq m F64.zero = false) (hn0 : F64.eq n F64.zero = false)
    (hd : Dot (ieee acos) a b = .ok d) (hd0 : F64.eq d F64.zero = true) :
    (∃ z, F64.eq z F64.zero = true ∧ Angle (ieee acos) a b = .ok (acos z)) ∧
    ((∀ z, F64.eq z F64.zero = true → acos z = F64.halfPi) →
      Angle (ieee acos) a b = .ok F64.halfPi) := by
  rw [Lenght_eq] at hm hn
  rw [Dot_eq _ a b hlen] at hd
  have em := Except.ok.inj hm
  have en := Except.ok.inj hn
  have ed := Except.ok.inj hd
  subst em en ed
  -- no element is NaN, since the dot product is not
  have hdn : (List.zipWith F64.mul a b).foldl F64.add F64.zero ≠ F64.nan := by
    intro h
    change F64.eq ((List.zipWith F64.mul a b).foldl F64.add F64.zero) F64.zero = true at hd0
    rw [h] at hd0
    cases hd0
  have hprod := F64.foldl_ne_nan _ _ hdn
  have ha : ∀ x ∈ a, x ≠ F64.nan := by
    intro x hx
    obtain ⟨y, _, hxy⟩ := mem_zipWith_left F64.mul a b hlen x hx
    exact (F64.mul_ne_nan x y (hprod _ hxy)).1
  have hb : ∀ y ∈ b, y ≠ F64.nan := by
    intro y hy
    obtain ⟨x, _, hxy⟩ := mem_zipWith_right F64.mul a b hlen y hy
    exact (F64.mul_ne_nan x y (hprod _ hxy)).2
  have hz : F64.eq (F64.div ((List.zipWith F64.mul a b).foldl F64.add F64.zero)
      (F64.mul (F64.sqrt ((List.zipWith F64.mul a a).foldl F64.add F64.zero))
        (F64.sqrt ((List.zipWith F64.mul b b).foldl F64.add F64.zero)))) F64.zero = true :=
    F64.zero_div _ _ hd0 (-1074)
      (F64.mul_above _ _ (F64.length_above a ha hm0) (F64.length_above b hb hn0))
  have hang : Angle (ieee acos) a b
      = .ok (acos (F64.div ((List.zipWith F64.mul a b).foldl F64.add F64.zero)
        (F64.mul (F64.sqrt ((List.zipWith F64.mul a a).foldl F64.add F64.zero))
          (F64.sqrt ((List.zipWith F64.mul b b).foldl F64.add F64.zero))))) := by
    rw [Angle_eq, if_neg, if_neg (not_not.mpr hlen)]
    · rfl
    · rintro (h | h)
      · exact Bool.false_ne_true (hm0.symm.trans h)
      · exact Bool.false_ne_true (hn0.symm.trans h)
  refine ⟨⟨_, hz, hang⟩, ?_⟩
  intro hacos
  rw [hang, hacos _ hz]

/-- C15 at the input of the specification: `Angle([1,0,0], [0,1,0])` is `π/2`,
for an arccosine with `acos(±0) = π/2`. -/
theorem Angle_orthogonal_witness :
    Angle (ieee (fun _ => F64.halfPi)) [F64.ofNat 1, F64.ofNat 0, F64.ofNat 0]
      [F64.ofNat 0, F64.ofNat 1, F64.ofNat 0] = .ok F64.halfPi :=
  (Angle_orthogonal (fun _ => F64.halfPi) [F64.ofNat 1, F64.ofNat 0, F64.ofNat 0]
    [F64.ofNat 0, F64.ofNat 1, F64.ofNat 0] rfl (F64.ofNat 1) (F64.ofNat 1) (F64.ofNat 0)
    (by decide!) (by decide!) (by decide!) (by decide!) (by decide!) (by decide!)).2
    (fun _ _ => rfl)

/-- C15 as stated fails: `a = [2^-600, 0]` and `b = [0, 2^-600]` are not zero
vectors and `Dot(a, b) == 0`, but the squares underflow, `Lenght(a) == 0`, and
`Angle(a, b)` panics with "vector is zero" instead of returning `π/2`. -/
theorem Angle_orthogonal_counterexample :
    ¬ ∀ (a b : Vector F64), a.length = b.length →
      (∃ x ∈ a, F64.eq x F64.zero = false) → (∃ y ∈ b, F64.eq y F64.zero = false) →
      ∀ d, Dot (ieee (fun _ => F64.halfPi)) a b = .ok d → F64.eq d F64.zero = true →
        Angle (ieee (fun _ => F64.halfPi)) a b = .ok F64.halfPi := by
  intro h
  have h1 := h [F64.fin false (2 ^ 52) (-652), F64.ofNat 0]
    [F64.ofNat 0, F64.fin false (2 ^ 52) (-652)] rfl
    ⟨_, List.mem_cons_self _ _, by decide!⟩
    ⟨_, List.mem_cons_of_mem _ (List.mem_cons_self _ _), by decide!⟩
    F64.zero (by decide!) (by decide)
  revert h1
  decide!

/-! ## Frame rules for heap computations -/

theorem Frames_pure {α : Type} (n : Nat) (r : α) (Q : α → Prop) (hQ : Q r) :
    Frames n (pure r : HeapM F α) Q := by
  intro h hn
  refine ⟨hn, fun _ _ => rfl, ?_⟩
  intro r1 hr
  cases hr
  exact hQ

theorem Frames_panic {α : Type} (n : Nat) (e : Panic) (Q : α → Prop) :
    Frames n (panicH e : HeapM F α) Q := by
  intro h hn
  refine ⟨hn, fun _ _ => rfl, ?_⟩
  intro r1 hr
  cases hr

theorem Frames_bind {α β : Type} (n : Nat) (x : HeapM F α) (f : α → HeapM F β)
    (Q : α → Prop) (R : β → Prop) (hx : Frames n x Q) (hf : ∀ r, Q r → Frames n (f r) R) :
    Frames n (x >>= f) R := by
  intro h hn
  obtain ⟨h1, h2, h3⟩ := hx h hn
  show n ≤ (HeapM.bind x f h).2.length ∧ (∀ p, p < n → (HeapM.bind x f h).2[p]? = h[p]?) ∧
    ∀ r, (HeapM.bind x f h).1 = .ok r → R r
  unfold HeapM.bind
  cases hxh : x h with
  | mk out hp =>
    rw [hxh] at h1 h2 h3
    cases out with
    | error e =>
      refine ⟨h1, h2, ?_⟩
      intro r hr
      cases hr
    | ok r =>
      obtain ⟨k1, k2, k3⟩ := hf r (h3 r rfl) hp h1
      exact ⟨k1, fun p hpn => (k2 p hpn).trans (h2 p hpn), k3⟩

theorem Frames_weaken {α : Type} (n : Nat) (x : HeapM F α) (Q R : α → Prop)
    (hx : Frames n x Q) (hQR : ∀ r, Q r → R r) : Frames n x R := by
  intro h hn
  obtain ⟨h1, h2, h3⟩ := hx h hn
  exact ⟨h1, h2, fun r hr => hQR r (h3 r hr)⟩

theorem Frames_make (A : Arith F) (n k : Nat) :
    Frames n (makeH A k) (fun c => n ≤ c.arr) := by
  intro h hn
  refine ⟨?_, ?_, ?_⟩
  · simp [makeH]; omega
  · intro p hp
    simp only [makeH]
    rw [List.getElem?_append_left (by omega)]
  · intro r hr
    simp only [makeH] at hr
    cases hr
    exact hn

theorem Frames_index (n : Nat) (a : Slice) (i : Nat) :
    Frames n (indexH a i : HeapM F F) (fun _ => True) := by
  intro h hn
  have hh : (indexH a i h).2 = h := by
    unfold indexH
    split
    · split
      · split <;> rfl
      · rfl
    · rfl
  rw [hh]
  exact ⟨hn, fun _ _ => rfl, fun _ _ => trivial⟩

theorem Frames_store (n : Nat) (c : Slice) (i : Nat) (x : F) (hc : n ≤ c.arr) :
    Frames n (storeH c i x) (fun _ => True) := by
  intro h hn
  unfold storeH
  split
  · split
    · split
      · refine ⟨by simpa using hn, ?_, fun _ _ => trivial⟩
        intro p hp
        show (h.set c.arr _)[p]? = h[p]?
        rw [List.getElem?_set_ne (by omega)]
      · exact ⟨hn, fun _ _ => rfl, fun _ _ => trivial⟩
    · exact ⟨hn, fun _ _ => rfl, fun _ _ => trivial⟩
  · exact ⟨hn, fun _ _ => rfl, fun _ _ => trivial⟩

theorem Frames_foldlM {α : Type} (n : Nat) (f : α → Nat → HeapM F α)
    (hf : ∀ acc i, Frames n (f acc i) (fun _ => True)) (l : List Nat) :
    ∀ init, Frames n (l.foldlM f init) (fun _ => True) := by
  induction l with
  | nil => intro init; exact Frames_pure n init _ trivial
  | cons i rest ih =>
    intro init
    rw [List.foldlM_cons]
    exact Frames_bind n _ _ _ _ (hf init i) (fun r _ => ih r)

theorem Frames_EqualH_loop (A : Arith F) (n : Nat) (a b : Slice) (eps : F) (l : List Nat) :
    Frames n (EqualH.loop A a b eps l) (fun _ => True) := by
  induction l with
  | nil => exact Frames_pure n true _ trivial
  | cons i rest ih =>
    unfold EqualH.loop
    refine Frames_bind n _ _ _ _ (Frames_index n a i) (fun x _ => ?_)
    refine Frames_bind n _ _ _ _ (Frames_index n b i) (fun y _ => ?_)
    split
    · exact Frames_pure n false _ trivial
    · exact ih

theorem Frames_EqualH (A : Arith F) (n : Nat) (a b : Slice) (eps : F) :
    Frames n (EqualH A a b eps) (fun _ => True) := by
  unfold EqualH
  split
  · exact Frames_pure n false _ trivial
  · exact Frames_EqualH_loop A n a b eps _

theorem Frames_AddH (A : Arith F) (n : Nat) (a b : Slice) :
    Frames n (AddH A a b) (fun c => n ≤ c.arr) := by
  unfold AddH
  split
  · exact Frames_panic n _ _
  · refine Frames_bind n _ _ _ _ (Frames_make A n a.len) (fun c hc => ?_)
    refine Frames_bind n _ _ (fun _ => True) _ ?_ (fun _ _ => Frames_pure n c _ hc)
    apply Frames_foldlM
    intro _ i
    refine Frames_bind n _ _ _ _ (Frames_index n a i) (fun x _ => ?_)
    refine Frames_bind n _ _ _ _ (Frames_index n b i) (fun y _ => ?_)
    exact Frames_store n c i _ hc

theorem Frames_NegateH (A : Arith F) (n : Nat) (a : Slice) :
    Frames n (NegateH A a) (fun c => n ≤ c.arr) := by
  unfold NegateH
  refine Frames_bind n _ _ _ _ (Frames_make A n a.len) (fun c hc => ?_)
  refine Frames_bind n _ _ (fun _ => True) _ ?_ (fun _ _ => Frames_pure n c _ hc)
  apply Frames_foldlM
  intro _ i
  refine Frames_bind n _ _ _ _ (Frames_index n a i) (fun x _ => ?_)
  exact Frames_store n c i _ hc

theorem Frames_SubH (A : Arith F) (n : Nat) (a b : Slice) :
    Frames n (SubH A a b) (fun c => n ≤ c.arr) := by
  unfold SubH
  exact Frames_bind n _ _ _ _ (Frames_NegateH A n b) (fun nb _ => Frames_AddH A n a nb)

theorem Frames_HadamardProductH (A : Arith F) (n : Nat) (a b : Slice) :
    Frames n (HadamardProductH A a b) (fun c => n ≤ c.arr) := by
  unfold HadamardProductH
  split
  · exact Frames_panic n _ _
  · refine Frames_bind n _ _ _ _ (Frames_make A n a.len) (fun c hc => ?_)
    refine Frames_bind n _ _ (fun _ => True) _ ?_ (fun _ _ => Frames_pure n c _ hc)
    apply Frames_foldlM
    intro _ i
    refine Frames_bind n _ _ _ _ (Frames_index n a i) (fun x _ => ?_)
    refine Frames_bind n _ _ _ _ (Frames_index n b i) (fun y _ => ?_)
    exact Frames_store n c i _ hc

theorem Frames_SumH (A : Arith F) (n : Nat) (a : Slice) :
    Frames n (SumH A a) (fun _ => True) := by
  unfold SumH
  apply Frames_foldlM
  intro sum i
  exact Frames_bind n _ _ _ _ (Frames_index n a i) (fun x _ => Frames_pure n _ _ trivial)

theorem Frames_DotH (A : Arith F) (n : Nat) (a b : Slice) :
    Frames n (DotH A a b) (fun _ => True) := by
  unfold DotH
  exact Frames_bind n _ _ _ _ (Frames_HadamardProductH A n a b) (fun c _ => Frames_SumH A n c)

theorem Frames_LenghtH (A : Arith F) (n : Nat) (a : Slice) :
    Frames n (LenghtH A a) (fun _ => True) := by
  unfold LenghtH
  exact Frames_bind n _ _ _ _ (Frames_DotH A n a a) (fun d _ => Frames_pure n _ _ trivial)

theorem Frames_AngleH (A : Arith F) (n : Nat) (a b : Slice) :
    Frames n (AngleH A a b) (fun _ => True) := by
  unfold AngleH
  refine Frames_bind n _ _ _ _ (Frames_LenghtH A n a) (fun m _ => ?_)
  refine Frames_bind n _ _ _ _ (Frames_LenghtH A n b) (fun k _ => ?_)
  split
  · exact Frames_panic n _ _
  · exact Frames_bind n _ _ _ _ (Frames_DotH A n a b) (fun d _ => Frames_pure n _ _ trivial)

theorem Frames_CrossH (A : Arith F) (n : Nat) (a b : Slice) :
    Frames n (CrossH A a b) (fun c => n ≤ c.arr) := by
  unfold CrossH
  split
  · exact Frames_panic n _ _
  · refine Frames_bind n _ _ _ _ (Frames_make A n 3) (fun c hc => ?_)
    refine Frames_bind n _ _ _ _ (Frames_index n a 1) (fun _ _ => ?_)
    refine Frames_bind n _ _ _ _ (Frames_index n b 2) (fun _ _ => ?_)
    refine Frames_bind n _ _ _ _ (Frames_index n a 2) (fun _ _ => ?_)
    refine Frames_bind n _ _ _ _ (Frames_index n b 1) (fun _ _ => ?_)
    refine Frames_bind n _ _ _ _ (Frames_store n c 0 _ hc) (fun _ _ => ?_)
    refine Frames_bind n _ _ _ _ (Frames_index n a 2) (fun _ _ => ?_)
    refine Frames_bind n _ _ _ _ (Frames_index n b 0) (fun _ _ => ?_)
    refine Frames_bind n _ _ _ _ (Frames_index n a 0) (fun _ _ => ?_)
    refine Frames_bind n _ _ _ _ (Frames_index n b 2) (fun _ _ => ?_)
    refine Frames_bind n _ _ _ _ (Frames_store n c 1 _ hc) (fun _ _ => ?_)
    refine Frames_bind n _ _ _ _ (Frames_index n a 0) (fun _ _ => ?_)
    refine Frames_bind n _ _ _ _ (Frames_index n b 1) (fun _ _ => ?_)
    refine Frames_bind n _ _ _ _ (Frames_index n a 1) (fun _ _ => ?_)
    refine Frames_bind n _ _ _ _ (Frames_index n b 0) (fun _ _ => ?_)
    refine Frames_bind n _ _ _ _ (Frames_store n c 2 _ hc) (fun _ _ => ?_)
    exact Frames_pure n c _ hc

theorem Unchanged_of_Frames {α : Type} (x : HeapM F α) (Q : α → Prop) (h : Heap F)
    (hx : Frames h.length x Q) : Unchanged h (x h).2 ∧ ∀ r, (x h).1 = .ok r → Q r := by
  obtain ⟨h1, h2, h3⟩ := hx h (Nat.le_refl _)
  exact ⟨⟨h1, h2⟩, h3⟩

/-! ## C17: no method mutates or aliases its operands -/

/-- C17: whatever the heap and the slices `a`, `b`, after a call of any of the
ten methods, whether it returns or panics, every backing array that existed
before the call has the same length and the same elements; and a vector that
`Add`, `Negate`, `Sub`, `HadamardProduct` or `Cross` returns lies in a backing
array allocated during the call, at an address that did not exist before, so it
aliases neither operand. -/
theorem no_mutation (A : Arith F) (a b : Slice) (eps : F) (h : Heap F) :
    (Unchanged h (EqualH A a b eps h).2 ∧ Unchanged h (AddH A a b h).2 ∧
      Unchanged h (NegateH A a h).2 ∧ Unchanged h (SubH A a b h).2 ∧
      Unchanged h (HadamardProductH A a b h).2 ∧ Unchanged h (SumH A a h).2 ∧
      Unchanged h (DotH A a b h).2 ∧ Unchanged h (LenghtH A a h).2 ∧
      Unchanged h (AngleH A a b h).2 ∧ Unchanged h (CrossH A a b h).2) ∧
    (∀ c, (AddH A a b h).1 = .ok c → h.length ≤ c.arr) ∧
    (∀ c, (NegateH A a h).1 = .ok c → h.length ≤ c.arr) ∧
    (∀ c, (SubH A a b h).1 = .ok c → h.length ≤ c.arr) ∧
    (∀ c, (HadamardProductH A a b h).1 = .ok c → h.length ≤ c.arr) ∧
    (∀ c, (CrossH A a b h).1 = .ok c → h.length ≤ c.arr) :=
  ⟨⟨(Unchanged_of_Frames _ _ h (Frames_EqualH A h.length a b eps)).1,
     (Unchanged_of_Frames _ _ h (Frames_AddH A h.length a b)).1,
     (Unchanged_of_Frames _ _ h (Frames_NegateH A h.length a)).1,
     (Unchanged_of_Frames _ _ h (Frames_SubH A h.length a b)).1,
     (Unchanged_of_Frames _ _ h (Frames_HadamardProductH A h.length a b)).1,
     (Unchanged_of_Frames _ _ h (Frames_SumH A h.length a)).1,
     (Unchanged_of_Frames _ _ h (Frames_DotH A h.length a b)).1,
     (Unchanged_of_Frames _ _ h (Frames_LenghtH A h.length a)).1,
     (Unchanged_of_Frames _ _ h (Frames_AngleH A h.length a b)).1,
     (Unchanged_of_Frames _ _ h (Frames_CrossH A h.length a b)).1⟩,
   (Unchanged_of_Frames _ _ h (Frames_AddH A h.length a b)).2,
   (Unchanged_of_Frames _ _ h (Frames_NegateH A h.length a)).2,
   (Unchanged_of_Frames _ _ h (Frames_SubH A h.length a b)).2,
   (Unchanged_of_Frames _ _ h (Frames_HadamardProductH A h.length a b)).2,
   (Unchanged_of_Frames _ _ h (Frames_CrossH A h.length a b)).2⟩

/-- C17 at a concrete heap: with `a = [1,2]` at address 0 and `b = [3,4]` at
address 1, `Add(a, b)` returns the slice of a new array `[4,6]` at address 2 and
leaves the arrays at 0 and 1 as they were; `Add(a, a)` with both operands the same
slice returns a new array as well; and a panicking `Add` leaves the heap as it
was. -/
theorem no_mutation_witness :
    AddH (ieee id) ⟨0, 0, 2⟩ ⟨1, 0, 2⟩ [[F64.ofNat 1, F64.ofNat 2], [F64.ofNat 3, F64.ofNat 4]]
      = (.ok ⟨2, 0, 2⟩, [[F64.ofNat 1, F64.ofNat 2], [F64.ofNat 3, F64.ofNat 4],
          [F64.ofNat 4, F64.ofNat 6]]) ∧
    Unchanged [[F64.ofNat 1, F64.ofNat 2], [F64.ofNat 3, F64.ofNat 4]]
      (AddH (ieee id) ⟨0, 0, 2⟩ ⟨1, 0, 2⟩
        [[F64.ofNat 1, F64.ofNat 2], [F64.ofNat 3, F64.ofNat 4]]).2 ∧
    AddH (ieee id) ⟨0, 0, 2⟩ ⟨0, 0, 2⟩ [[F64.ofNat 1, F64.ofNat 2]]
      = (.ok ⟨1, 0, 2⟩, [[F64.ofNat 1, F64.ofNat 2], [F64.ofNat 2, F64.ofNat 4]]) ∧
    AddH (ieee id) ⟨0, 0, 2⟩ ⟨0, 0, 1⟩ [[F64.ofNat 1, F64.ofNat 2]]
      = (.error .DimensionMismatch, [[F64.ofNat 1, F64.ofNat 2]]) :=
  ⟨by decide!,
   (no_mutation (ieee id) ⟨0, 0, 2⟩ ⟨1, 0, 2⟩ F64.zero
      [[F64.ofNat 1, F64.ofNat 2], [F64.ofNat 3, F64.ofNat 4]]).1.2.1,
   by decide!, by decide!⟩

end GoVector
